import Mathlib

/-!
# Shallow embedding of pylds lds_messages.pyx

This file embeds the four orchestration routines of src/pylds/lds_messages.pyx
(kalman_filter, rts_smoother, filter_and_sample, E_step) and the five
primitives they call (condition_on, predict, sample_gaussian,
rts_backward_step, set_dynamics_stats) as exact-real-arithmetic functions,
and proves properties of them.

Modelling conventions, fixed once and used throughout:

* A double value is modelled as a real number.  A data row whose first
  coordinate is the IEEE NaN missing-data sentinel (tested with
  y[0] != y[0] at line 247 of the source) is modelled as the value
  Option.none; a fully present row y is Option.some y.  NaN appears in the
  inputs only as this sentinel, so this is the exact extent of NaN handling
  in the source.

* The source keeps caller matrices in C (row-major) order and hands them to
  Fortran BLAS/LAPACK with transpose flags, as explained in the NOTE block at
  the top of the source.  Every BLAS call below has been resolved to the
  plain matrix-algebra operation it performs on the row-major contents, and
  is annotated with the source line it comes from.  In several places the
  column-major view introduces a pair of transposes that cancel; the
  annotation records this.

* The LAPACK backend is external to the repository; it is modelled from its
  documented contract.  dpotrf on a buffer M factors the symmetric matrix
  determined by the referenced (lower) triangle and reports success through
  an info status; on success the lower triangle holds the Cholesky factor
  and the strict upper triangle of the buffer is untouched.  On failure
  (matrix not positive definite) the contract only promises a nonzero info
  and leaves unspecified partially-updated contents; we model the failure
  contents as the unchanged input buffer (exactly faithful for the 1x1
  failures exercised below) and the failure status as 1.  dtrtrs checks the
  referenced triangle for exactly-zero diagonal entries and performs no
  solve when one is present (returning the right-hand side unchanged);
  otherwise it solves exactly.  dpotrs performs two triangular solves with
  no zero check; it is modelled through the Mathlib matrix inverse, which
  agrees with the exact solve whenever the factor's diagonal is nonzero
  (the only situation in which any theorem below evaluates it).
-/

open Matrix Real
open scoped Classical

noncomputable section

/-- Real vectors of length n (a length-n double buffer). -/
abbrev Vec (n : ℕ) := Fin n → ℝ

/-- Real n by m matrices (row-major contents of a 2-d double buffer). -/
abbrev Mat (n m : ℕ) := Matrix (Fin n) (Fin m) ℝ

/-- The lower triangle (diagonal included) of a square buffer, which is the
part read by the backend's triangular routines (uplo = L, diag = non-unit). -/
def tril {n : ℕ} (M : Mat n n) : Mat n n :=
  Matrix.of fun i j => if j ≤ i then M i j else 0

/-- The symmetric matrix determined by the lower triangle of a buffer: what
dpotrf with uplo = L actually factors. -/
def symmLower {n : ℕ} (M : Mat n n) : Mat n n :=
  Matrix.of fun i j => if j ≤ i then M i j else M j i

/-- L is a lower-triangular Cholesky factor of S with positive diagonal. -/
def IsCholeskyFactor {n : ℕ} (L S : Mat n n) : Prop :=
  (∀ i j : Fin n, i < j → L i j = 0) ∧ (∀ i, 0 < L i i) ∧ L * L.transpose = S

/-- Overwrite the lower triangle of buffer M with L, keeping M's strict upper
triangle (dpotrf with uplo = L does not touch the strict upper triangle). -/
def writeLower {n : ℕ} (L M : Mat n n) : Mat n n :=
  Matrix.of fun i j => if j ≤ i then L i j else M i j

/-- Model of LAPACK dpotrf (uplo = L): factor the symmetric matrix determined
by the lower triangle of the buffer.  Returns the updated buffer and the info
status (0 = success).  See the header comment for the failure-branch model. -/
def dpotrf {n : ℕ} (M : Mat n n) : Mat n n × ℕ :=
  if h : ∃ L, IsCholeskyFactor L (symmLower M) then
    (writeLower (Classical.choose h) M, 0)
  else (M, 1)

/-- Model of LAPACK dtrtrs (uplo = L, trans = N, diag = N) with one
right-hand-side vector: checks the referenced triangle for exactly-zero
diagonal entries (returning the right-hand side unchanged with a nonzero
info when one is found), otherwise solves (tril M) z = b exactly. -/
def dtrtrsVecLN {n : ℕ} (M : Mat n n) (b : Vec n) : Vec n :=
  if ∀ i, M i i ≠ 0 then (tril M)⁻¹.mulVec b else b

/-- Model of LAPACK dtrtrs (uplo = L, trans = T, diag = N) with one
right-hand-side vector: solves (tril M)ᵀ z = b, same zero-diagonal check. -/
def dtrtrsVecLT {n : ℕ} (M : Mat n n) (b : Vec n) : Vec n :=
  if ∀ i, M i i ≠ 0 then ((tril M).transpose)⁻¹.mulVec b else b

/-- Model of LAPACK dtrtrs (uplo = L, trans = N, diag = N) with a matrix of
right-hand sides: solves (tril M) X = B columnwise, same zero-diagonal check. -/
def dtrtrsMatLN {n m : ℕ} (M : Mat n n) (B : Mat n m) : Mat n m :=
  if ∀ i, M i i ≠ 0 then (tril M)⁻¹ * B else B

/-- Model of LAPACK dpotrs (uplo = L): given a buffer holding a Cholesky
factor in its lower triangle, apply the two triangular solves
X = (tril M)⁻ᵀ ((tril M)⁻¹ B).  dpotrs has no zero-diagonal check; the
matrix-inverse model agrees with it exactly whenever the factor's diagonal
is nonzero, the only case any theorem below evaluates. -/
def dpotrs {n m : ℕ} (M : Mat n n) (B : Mat n m) : Mat n m :=
  ((tril M).transpose)⁻¹ * ((tril M)⁻¹ * B)

/-- condition_on (source lines 233-277): Gaussian measurement update.
Inputs: prior (mu_x, sigma_x), observation model (C, sigma_obs), data row y.
Returns (mu_cond, sigma_cond, log-likelihood contribution).

Line map (normal branch; row-major semantics of each BLAS call):
* 254: temp_pn = C * sigma_xᵀ  (the column-major view of sigma_x is sigma_xᵀ);
* 255-256: temp_pp = sigma_obsᵀ + temp_pn * Cᵀ  (innovation covariance buffer);
* 257: dpotrf on temp_pp, info never inspected;
* 259-260: temp_p = y - C mu_x (the innovation);
* 261: forward solve, 262: ll = -1/2 |z|^2, 263: back substitution;
* 264-266: mu_cond = mu_x + temp_pnᵀ (the back-substituted vector);
* 268-272: solve L V = temp_pn, sigma_cond = sigma_x - Vᵀ V;
* 274-276: ll -= p/2 log(2 pi) + sum of log of the factor buffer's diagonal. -/
def condition_on {n p : ℕ} (mu_x : Vec n) (sigma_x : Mat n n)
    (C : Mat p n) (sigma_obs : Mat p p) (y : Option (Vec p)) :
    Vec n × Mat n n × ℝ :=
  match y with
  | none => (mu_x, sigma_x, 0)   -- lines 247-250: copy prior, contribute 0
  | some yv =>
    let tpn : Mat p n := C * sigma_x.transpose
    let Sbuf : Mat p p := sigma_obs.transpose + tpn * C.transpose
    let LM : Mat p p := (dpotrf Sbuf).1
    let r : Vec p := yv - C.mulVec mu_x
    let z : Vec p := dtrtrsVecLN LM r
    let w : Vec p := dtrtrsVecLT LM z
    let mu_c : Vec n := mu_x + tpn.transpose.mulVec w
    let V : Mat p n := dtrtrsMatLN LM tpn
    let sigma_c : Mat n n := sigma_x - V.transpose * V
    let ll : ℝ := -(1/2) * (z ⬝ᵥ z) - (p : ℝ)/2 * Real.log (2 * Real.pi)
      - ∑ i, Real.log (LM i i)
    (mu_c, sigma_c, ll)

/-- predict (source lines 280-301): Gaussian time update.
Line 297: mu_predict = A mu.  Lines 299-301: the column-major view computes
(A sigmaᵀ) Aᵀ added to sigma_statesᵀ; transposing back to row-major contents
gives sigma_predict = sigma_states + A sigma Aᵀ exactly (the two layout
transposes cancel). -/
def predict {n : ℕ} (mu : Vec n) (sigma : Mat n n)
    (A sigma_states : Mat n n) : Vec n × Mat n n :=
  (A.mulVec mu, sigma_states + A * sigma * A.transpose)

/-- sample_gaussian (source lines 304-316): x = mu + L z where L is the
Cholesky factor computed in place in the belief's covariance buffer (line
314; the column-major view of the row-major buffer is sigmaᵀ) and z is the
supplied standard-normal vector (mutated in place, line 315-316). -/
def sample_gaussian {n : ℕ} (mu : Vec n) (sigma : Mat n n)
    (randvec : Vec n) : Vec n :=
  let LM : Mat n n := (dpotrf sigma.transpose).1
  (tril LM).mulVec randvec + mu

/-- rts_backward_step (source lines 319-347).  Returns the smoothed mean and
covariance at time t and the contents of the temp_nn buffer on exit (the
transposed RTS gain, used by set_dynamics_stats).

Line map (row-major semantics):
* 336: temp_nn = A * filtered_sigmaᵀ;
* 338-339: copy next_predict_sigma (column-major view: its transpose) and
  dpotrf it, info never inspected;
* 340: dpotrs: temp_nn = Gt where Gt solves (next_predict_sigmaᵀ) Gt = A filtered_sigmaᵀ;
* 342-343: filtered_mu += -Gtᵀ (next_predict_mu - next_smoothed_mu);
* 345-347: the column-major updates compose to
  filtered_sigma -= Gtᵀ (next_predict_sigma - next_smoothed_sigma) Gt
  on the row-major contents (the layout transposes cancel).
The sigma_states argument is accepted but never used, as in the source. -/
def rts_backward_step {n : ℕ} (A sigma_states : Mat n n)
    (filtered_mu : Vec n) (filtered_sigma : Mat n n)
    (next_predict_mu : Vec n) (next_predict_sigma : Mat n n)
    (next_smoothed_mu : Vec n) (next_smoothed_sigma : Mat n n) :
    Vec n × Mat n n × Mat n n :=
  let tmp : Mat n n := A * filtered_sigma.transpose
  let LM : Mat n n := (dpotrf next_predict_sigma.transpose).1
  let Gt : Mat n n := dpotrs LM tmp
  let mu_s : Vec n :=
    filtered_mu - Gt.transpose.mulVec (next_predict_mu - next_smoothed_mu)
  let sigma_s : Mat n n :=
    filtered_sigma - Gt.transpose * (next_predict_sigma - next_smoothed_sigma) * Gt
  (mu_s, sigma_s, Gt)

/-- set_dynamics_stats (source lines 350-359): the cross-time second-moment
statistic.  GkT is the temp_nn buffer left by rts_backward_step.  Lines
358-359 compute, in the column-major view, GkTᵀ Pknsᵀ plus the outer product
mk mknᵀ; the row-major contents of the output buffer are therefore
Pkns * GkT + mkn mkᵀ. -/
def set_dynamics_stats {n : ℕ} (mk mkn : Vec n) (Pkns GkT : Mat n n) :
    Mat n n :=
  Pkns * GkT + Matrix.vecMulVec mkn mk

end

noncomputable section

section Routines

variable {n p : ℕ} (mu_init : Vec n) (sigma_init : Mat n n)
variable (A sigma_states : ℕ → Mat n n) (C : ℕ → Mat p n) (sigma_obs : ℕ → Mat p p)
variable (data : ℕ → Option (Vec p))

/-- Rolling state of the kalman_filter forward loop (source lines 45-46, 56):
the one-step prediction buffers mu_predict, sigma_predict and the
log-likelihood accumulator ll. -/
structure KFState (n : ℕ) where
  muPredict : Vec n
  sigmaPredict : Mat n n
  ll : ℝ

/-- State of the kalman_filter loop before iteration t (lines 59-68):
initialised from copies of mu_init, sigma_init with ll = 0 (lines 45-46, 56);
each iteration conditions on data[t] and predicts forward. -/
def kfState : ℕ → KFState n
  | 0 => ⟨mu_init, sigma_init, 0⟩
  | t + 1 =>
    let s := kfState t
    let c := condition_on s.muPredict s.sigmaPredict (C t) (sigma_obs t) (data t)
    let pr := predict c.1 c.2.1 (A t) (sigma_states t)
    ⟨pr.1, pr.2, s.ll + c.2.2⟩

/-- The value written into filtered_mus[t], filtered_sigmas[t] at iteration t
of the kalman_filter loop (lines 60-63). -/
def kfFiltered (t : ℕ) : Vec n × Mat n n × ℝ :=
  let s := kfState mu_init sigma_init A sigma_states C sigma_obs data t
  condition_on s.muPredict s.sigmaPredict (C t) (sigma_obs t) (data t)

/-- kalman_filter (source lines 35-70): returns the accumulated
log-likelihood and the filtered means and covariances. -/
def kalman_filter (T : ℕ) : ℝ × (Fin T → Vec n) × (Fin T → Mat n n) :=
  ((kfState mu_init sigma_init A sigma_states C sigma_obs data T).ll,
   fun t => (kfFiltered mu_init sigma_init A sigma_states C sigma_obs data t).1,
   fun t => (kfFiltered mu_init sigma_init A sigma_states C sigma_obs data t).2.1)

/-- State of the rts_smoother forward loop after t iterations (source lines
97-108): the mu_predicts / sigma_predicts arrays (indices 0..t written, index
0 initialised from mu_init, sigma_init at lines 98-99), the smoothed_mus /
smoothed_sigmas arrays (indices < t written, holding filtered values), and
the ll accumulator.  Unwritten array cells hold the arbitrary np.empty
contents, modelled as 0. -/
structure RTSFwdState (n : ℕ) where
  muPredicts : ℕ → Vec n
  sigmaPredicts : ℕ → Mat n n
  smoothedMus : ℕ → Vec n
  smoothedSigmas : ℕ → Mat n n
  ll : ℝ

/-- The rts_smoother forward loop (lines 98-108), iterated t times. -/
def rtsFwd : ℕ → RTSFwdState n
  | 0 =>
    ⟨Function.update (fun _ => 0) 0 mu_init,
     Function.update (fun _ => 0) 0 sigma_init,
     fun _ => 0, fun _ => 0, 0⟩
  | t + 1 =>
    let s := rtsFwd t
    let c := condition_on (s.muPredicts t) (s.sigmaPredicts t) (C t)
      (sigma_obs t) (data t)
    let pr := predict c.1 c.2.1 (A t) (sigma_states t)
    ⟨Function.update s.muPredicts (t + 1) pr.1,
     Function.update s.sigmaPredicts (t + 1) pr.2,
     Function.update s.smoothedMus t c.1,
     Function.update s.smoothedSigmas t c.2.1,
     s.ll + c.2.2⟩

/-- One iteration of the rts_smoother backward loop (lines 111-117), at
index t: overwrite smoothed_mus[t], smoothed_sigmas[t] (currently holding the
filtered values) with the output of rts_backward_step, reading the
already-final smoothed values at t+1 and the saved predictions at t+1. -/
def rtsBackBody (fwd : RTSFwdState n) (st : (ℕ → Vec n) × (ℕ → Mat n n))
    (t : ℕ) : (ℕ → Vec n) × (ℕ → Mat n n) :=
  let r := rts_backward_step (A t) (sigma_states t) (st.1 t) (st.2 t)
    (fwd.muPredicts (t + 1)) (fwd.sigmaPredicts (t + 1))
    (st.1 (t + 1)) (st.2 (t + 1))
  (Function.update st.1 t r.1, Function.update st.2 t r.2.1)

/-- The rts_smoother backward loop (lines 111-117): fold the body over
t = T-2, T-3, ..., 0, starting from the arrays left by the forward pass. -/
def rtsBack (T : ℕ) : (ℕ → Vec n) × (ℕ → Mat n n) :=
  let fwd := rtsFwd mu_init sigma_init A sigma_states C sigma_obs data T
  ((List.range (T - 1)).reverse).foldl
    (rtsBackBody A sigma_states fwd) (fwd.smoothedMus, fwd.smoothedSigmas)

/-- rts_smoother (source lines 73-119): forward pass saving predictions,
backward RTS pass, returning ll and the smoothed means and covariances. -/
def rts_smoother (T : ℕ) : ℝ × (Fin T → Vec n) × (Fin T → Mat n n) :=
  let fwd := rtsFwd mu_init sigma_init A sigma_states C sigma_obs data T
  let b := rtsBack mu_init sigma_init A sigma_states C sigma_obs data T
  (fwd.ll, fun t => b.1 t, fun t => b.2 t)

/-- Rolling state of the filter_and_sample forward loop (source lines
132-133, 146, 149-157): identical in structure to the kalman_filter loop. -/
def fsFwd : ℕ → KFState n
  | 0 => ⟨mu_init, sigma_init, 0⟩
  | t + 1 =>
    let s := fsFwd t
    let c := condition_on s.muPredict s.sigmaPredict (C t) (sigma_obs t) (data t)
    let pr := predict c.1 c.2.1 (A t) (sigma_states t)
    ⟨pr.1, pr.2, s.ll + c.2.2⟩

/-- The value written into filtered_mus[t], filtered_sigmas[t] by the
filter_and_sample forward loop (lines 150-153). -/
def fsFiltered (t : ℕ) : Vec n × Mat n n × ℝ :=
  let s := fsFwd mu_init sigma_init A sigma_states C sigma_obs data t
  condition_on s.muPredict s.sigmaPredict (C t) (sigma_obs t) (data t)

/-- One iteration of the backward sampling loop (lines 161-166) at index t:
condition the filtered belief at t on the already-drawn sample at t+1
through the dynamics model (A[t] as observation matrix, sigma_states[t] as
observation noise; the ll return of condition_on is discarded), then
overwrite randseq[t] with a draw from the conditioned belief. -/
def fsBackBody (randseq : ℕ → Vec n) (xs : ℕ → Vec n) (t : ℕ) : ℕ → Vec n :=
  let f := fsFiltered mu_init sigma_init A sigma_states C sigma_obs data t
  let c := condition_on f.1 f.2.1 (A t) (sigma_states t) (some (xs (t + 1)))
  Function.update xs t (sample_gaussian c.1 c.2.1 (randseq t))

/-- The backward sampling pass (lines 160-166): seed index T-1 from the final
filtered belief, then fold over t = T-2, ..., 0. -/
def fsBack (randseq : ℕ → Vec n) (T : ℕ) : ℕ → Vec n :=
  let fT := fsFiltered mu_init sigma_init A sigma_states C sigma_obs data (T - 1)
  ((List.range (T - 1)).reverse).foldl
    (fsBackBody mu_init sigma_init A sigma_states C sigma_obs data randseq)
    (Function.update randseq (T - 1)
      (sample_gaussian fT.1 fT.2.1 (randseq (T - 1))))

/-- filter_and_sample (source lines 122-168): forward filter, backward
sampling pass.  The externally generated standard-normal draws (np.random.randn
at line 145) are passed in as randseq.  Returns ll and the sample sequence
(the randseq buffer after its in-place transformation). -/
def filter_and_sample (randseq : ℕ → Vec n) (T : ℕ) :
    ℝ × (Fin T → Vec n) :=
  ((fsFwd mu_init sigma_init A sigma_states C sigma_obs data T).ll,
   fun t => fsBack mu_init sigma_init A sigma_states C sigma_obs data randseq T t)

/-- The E_step forward loop (lines 200-211), identical in structure to the
rts_smoother forward loop. -/
def esFwd : ℕ → RTSFwdState n
  | 0 =>
    ⟨Function.update (fun _ => 0) 0 mu_init,
     Function.update (fun _ => 0) 0 sigma_init,
     fun _ => 0, fun _ => 0, 0⟩
  | t + 1 =>
    let s := esFwd t
    let c := condition_on (s.muPredicts t) (s.sigmaPredicts t) (C t)
      (sigma_obs t) (data t)
    let pr := predict c.1 c.2.1 (A t) (sigma_states t)
    ⟨Function.update s.muPredicts (t + 1) pr.1,
     Function.update s.sigmaPredicts (t + 1) pr.2,
     Function.update s.smoothedMus t c.1,
     Function.update s.smoothedSigmas t c.2.1,
     s.ll + c.2.2⟩

/-- One iteration of the E_step backward loop (lines 214-223) at index t:
the rts_backward_step update of smoothed index t followed by
set_dynamics_stats writing ExxnT[t] from the new smoothed mean at t, the
smoothed belief at t+1, and the gain buffer left by the step. -/
def esBackBody (fwd : RTSFwdState n)
    (st : (ℕ → Vec n) × (ℕ → Mat n n) × (ℕ → Mat n n)) (t : ℕ) :
    (ℕ → Vec n) × (ℕ → Mat n n) × (ℕ → Mat n n) :=
  let r := rts_backward_step (A t) (sigma_states t) (st.1 t) (st.2.1 t)
    (fwd.muPredicts (t + 1)) (fwd.sigmaPredicts (t + 1))
    (st.1 (t + 1)) (st.2.1 (t + 1))
  (Function.update st.1 t r.1, Function.update st.2.1 t r.2.1,
   Function.update st.2.2 t
     (set_dynamics_stats r.1 (st.1 (t + 1)) (st.2.1 (t + 1)) r.2.2))

/-- The E_step backward loop (lines 214-223) folded over t = T-2, ..., 0;
the ExxnT array cells start as np.empty contents, modelled as 0. -/
def esBack (T : ℕ) : (ℕ → Vec n) × (ℕ → Mat n n) × (ℕ → Mat n n) :=
  let fwd := esFwd mu_init sigma_init A sigma_states C sigma_obs data T
  ((List.range (T - 1)).reverse).foldl
    (esBackBody A sigma_states fwd)
    (fwd.smoothedMus, fwd.smoothedSigmas, fun _ => 0)

/-- E_step (source lines 171-225): forward pass saving predictions, backward
RTS pass collecting the cross-time second moments E[x_t x_{t+1}ᵀ]; returns
ll, the smoothed means and covariances, and the (T-1)-length ExxnT sequence. -/
def E_step (T : ℕ) :
    ℝ × (Fin T → Vec n) × (Fin T → Mat n n) × (Fin (T - 1) → Mat n n) :=
  let fwd := esFwd mu_init sigma_init A sigma_states C sigma_obs data T
  let b := esBack mu_init sigma_init A sigma_states C sigma_obs data T
  (fwd.ll, fun t => b.1 t, fun t => b.2.1 t, fun t => b.2.2 t)

end Routines

end

noncomputable section

/-- Reading a component that a fold over a list never changes. -/
lemma foldlReadEq {σ β : Type*} (f : σ → ℕ → σ) (read : σ → β)
    (l : List ℕ) (st : σ) (h : ∀ st x, x ∈ l → read (f st x) = read st) :
    read (l.foldl f st) = read st := by
  induction l generalizing st with
  | nil => rfl
  | cons a l ih =>
    rw [List.foldl_cons, ih _ fun st x hx => h st x (List.mem_cons_of_mem a hx),
      h st a (List.mem_cons_self a l)]

section RoutineLemmas

variable {n p : ℕ} (mu_init : Vec n) (sigma_init : Mat n n)
variable (A sigma_states : ℕ → Mat n n) (C : ℕ → Mat p n) (sigma_obs : ℕ → Mat p p)
variable (data : ℕ → Option (Vec p))

/-- The rts_smoother forward pass computes the same quantities as the
kalman_filter forward pass: same ll accumulator, the saved prediction arrays
hold the rolling prediction state, and the smoothed arrays hold the filtered
values (they are the identical sequence of condition_on / predict calls). -/
lemma rtsFwd_spec (t : ℕ) :
    ((rtsFwd mu_init sigma_init A sigma_states C sigma_obs data t).ll
        = (kfState mu_init sigma_init A sigma_states C sigma_obs data t).ll)
    ∧ (∀ j, j ≤ t →
        (rtsFwd mu_init sigma_init A sigma_states C sigma_obs data t).muPredicts j
          = (kfState mu_init sigma_init A sigma_states C sigma_obs data j).muPredict
        ∧ (rtsFwd mu_init sigma_init A sigma_states C sigma_obs data t).sigmaPredicts j
          = (kfState mu_init sigma_init A sigma_states C sigma_obs data j).sigmaPredict)
    ∧ (∀ j, j < t →
        (rtsFwd mu_init sigma_init A sigma_states C sigma_obs data t).smoothedMus j
          = (kfFiltered mu_init sigma_init A sigma_states C sigma_obs data j).1
        ∧ (rtsFwd mu_init sigma_init A sigma_states C sigma_obs data t).smoothedSigmas j
          = (kfFiltered mu_init sigma_init A sigma_states C sigma_obs data j).2.1) := by
  induction t with
  | zero =>
    refine ⟨rfl, ?_, ?_⟩
    · intro j hj
      have hj0 : j = 0 := Nat.le_zero.mp hj
      subst hj0
      exact ⟨rfl, rfl⟩
    · intro j hj
      exact absurd hj (Nat.not_lt_zero j)
  | succ t ih =>
    obtain ⟨ihll, ihpred, ihfilt⟩ := ih
    have hpt := ihpred t le_rfl
    refine ⟨?_, ?_, ?_⟩
    · simp only [rtsFwd, kfState, hpt.1, hpt.2, ihll, kfFiltered]
    · intro j hj
      rcases Nat.lt_or_ge j (t + 1) with hlt | hge
      · have hj' : j ≤ t := Nat.lt_succ_iff.mp hlt
        have hne : j ≠ t + 1 := by omega
        simp only [rtsFwd, Function.update_apply, if_neg hne]
        exact ihpred j hj'
      · have hj' : j = t + 1 := le_antisymm hj hge
        subst hj'
        simp only [rtsFwd, Function.update_apply, if_pos rfl, hpt.1, hpt.2, kfState]
        exact ⟨rfl, rfl⟩
    · intro j hj
      rcases Nat.lt_or_ge j t with hlt | hge
      · have hne : j ≠ t := by omega
        simp only [rtsFwd, Function.update_apply, if_neg hne]
        exact ihfilt j hlt
      · have hj' : j = t := by omega
        subst hj'
        simp only [rtsFwd, Function.update_apply, if_pos rfl, hpt.1, hpt.2, kfFiltered]
        exact ⟨rfl, rfl⟩

/-- The filter_and_sample forward loop is the kalman_filter forward loop. -/
lemma fsFwd_eq_kfState (t : ℕ) :
    fsFwd mu_init sigma_init A sigma_states C sigma_obs data t
      = kfState mu_init sigma_init A sigma_states C sigma_obs data t := by
  induction t with
  | zero => rfl
  | succ t ih => simp only [fsFwd, kfState, ih]

/-- The filter_and_sample filtered values are the kalman_filter ones. -/
lemma fsFiltered_eq_kfFiltered (t : ℕ) :
    fsFiltered mu_init sigma_init A sigma_states C sigma_obs data t
      = kfFiltered mu_init sigma_init A sigma_states C sigma_obs data t := by
  simp only [fsFiltered, kfFiltered, fsFwd_eq_kfState]

/-- The E_step forward loop is the rts_smoother forward loop. -/
lemma esFwd_eq_rtsFwd (t : ℕ) :
    esFwd mu_init sigma_init A sigma_states C sigma_obs data t
      = rtsFwd mu_init sigma_init A sigma_states C sigma_obs data t := by
  induction t with
  | zero => rfl
  | succ t ih => simp only [esFwd, rtsFwd, ih]

/-- The rts_smoother backward loop never writes an index at or beyond T-1. -/
lemma rtsBack_apply_ge (T j : ℕ) (hj : T - 1 ≤ j) :
    (rtsBack mu_init sigma_init A sigma_states C sigma_obs data T).1 j
      = (rtsFwd mu_init sigma_init A sigma_states C sigma_obs data T).smoothedMus j
    ∧ (rtsBack mu_init sigma_init A sigma_states C sigma_obs data T).2 j
      = (rtsFwd mu_init sigma_init A sigma_states C sigma_obs data T).smoothedSigmas j := by
  simp only [rtsBack]
  constructor
  · refine foldlReadEq
      (rtsBackBody A sigma_states
        (rtsFwd mu_init sigma_init A sigma_states C sigma_obs data T))
      (fun st => st.1 j) _ _ ?_
    intro st x hx
    have hx' : x < T - 1 := List.mem_range.mp (List.mem_reverse.mp hx)
    exact Function.update_noteq (by omega) _ _
  · refine foldlReadEq
      (rtsBackBody A sigma_states
        (rtsFwd mu_init sigma_init A sigma_states C sigma_obs data T))
      (fun st => st.2 j) _ _ ?_
    intro st x hx
    have hx' : x < T - 1 := List.mem_range.mp (List.mem_reverse.mp hx)
    exact Function.update_noteq (by omega) _ _

end RoutineLemmas

end

noncomputable section

/-- C5: for every valid input with T >= 1, the smoothed mean and covariance
returned by rts_smoother at the final timestep T-1 exactly equal the filtered
mean and covariance that kalman_filter returns at T-1 on the same input; the
RTS backward pass never touches index T-1. -/
theorem C5_rts_smoother_boundary {n p : ℕ} (T : ℕ) (hT : 0 < T)
    (mu_init : Vec n) (sigma_init : Mat n n) (A sigma_states : ℕ → Mat n n)
    (C : ℕ → Mat p n) (sigma_obs : ℕ → Mat p p) (data : ℕ → Option (Vec p)) :
    (rts_smoother mu_init sigma_init A sigma_states C sigma_obs data T).2.1
        ⟨T - 1, Nat.sub_lt hT Nat.one_pos⟩
      = (kalman_filter mu_init sigma_init A sigma_states C sigma_obs data T).2.1
        ⟨T - 1, Nat.sub_lt hT Nat.one_pos⟩
    ∧ (rts_smoother mu_init sigma_init A sigma_states C sigma_obs data T).2.2
        ⟨T - 1, Nat.sub_lt hT Nat.one_pos⟩
      = (kalman_filter mu_init sigma_init A sigma_states C sigma_obs data T).2.2
        ⟨T - 1, Nat.sub_lt hT Nat.one_pos⟩ := by
  have hback := rtsBack_apply_ge mu_init sigma_init A sigma_states C sigma_obs data
    T (T - 1) le_rfl
  have hfwd := (rtsFwd_spec mu_init sigma_init A sigma_states C sigma_obs data T).2.2
    (T - 1) (Nat.sub_lt hT Nat.one_pos)
  constructor
  · simpa only [rts_smoother, kalman_filter, hback.1] using hfwd.1
  · simpa only [rts_smoother, kalman_filter, hback.2] using hfwd.2

theorem C5_witness :
    (0 : ℕ) < 1 ∧
    ((rts_smoother (0 : Vec 1) (0 : Mat 1 1) (fun _ => 0) (fun _ => 0)
        (fun _ => (0 : Mat 1 1)) (fun _ => 0) (fun _ => none) 1).2.1
        ⟨1 - 1, Nat.sub_lt Nat.one_pos Nat.one_pos⟩
      = (kalman_filter (0 : Vec 1) (0 : Mat 1 1) (fun _ => 0) (fun _ => 0)
        (fun _ => (0 : Mat 1 1)) (fun _ => 0) (fun _ => none) 1).2.1
        ⟨1 - 1, Nat.sub_lt Nat.one_pos Nat.one_pos⟩
    ∧ (rts_smoother (0 : Vec 1) (0 : Mat 1 1) (fun _ => 0) (fun _ => 0)
        (fun _ => (0 : Mat 1 1)) (fun _ => 0) (fun _ => none) 1).2.2
        ⟨1 - 1, Nat.sub_lt Nat.one_pos Nat.one_pos⟩
      = (kalman_filter (0 : Vec 1) (0 : Mat 1 1) (fun _ => 0) (fun _ => 0)
        (fun _ => (0 : Mat 1 1)) (fun _ => 0) (fun _ => none) 1).2.2
        ⟨1 - 1, Nat.sub_lt Nat.one_pos Nat.one_pos⟩) :=
  ⟨Nat.one_pos, C5_rts_smoother_boundary 1 Nat.one_pos 0 0 _ _ _ _ _⟩

/-- C6: on identical valid inputs all four orchestration routines return the
same total log-likelihood: each accumulates it over the identical
conditioning-then-prediction forward pass, and the backward passes never
touch the accumulator. -/
theorem C6_loglik_agreement {n p : ℕ} (T : ℕ) (hT : 0 < T)
    (mu_init : Vec n) (sigma_init : Mat n n) (A sigma_states : ℕ → Mat n n)
    (C : ℕ → Mat p n) (sigma_obs : ℕ → Mat p p) (data : ℕ → Option (Vec p))
    (randseq : ℕ → Vec n) :
    (kalman_filter mu_init sigma_init A sigma_states C sigma_obs data T).1
      = (rts_smoother mu_init sigma_init A sigma_states C sigma_obs data T).1
    ∧ (kalman_filter mu_init sigma_init A sigma_states C sigma_obs data T).1
      = (filter_and_sample mu_init sigma_init A sigma_states C sigma_obs data randseq T).1
    ∧ (kalman_filter mu_init sigma_init A sigma_states C sigma_obs data T).1
      = (E_step mu_init sigma_init A sigma_states C sigma_obs data T).1 := by
  refine ⟨?_, ?_, ?_⟩
  · simpa only [kalman_filter, rts_smoother] using
      ((rtsFwd_spec mu_init sigma_init A sigma_states C sigma_obs data T).1).symm
  · simp only [kalman_filter, filter_and_sample,
      fsFwd_eq_kfState mu_init sigma_init A sigma_states C sigma_obs data T]
  · simp only [kalman_filter, E_step,
      esFwd_eq_rtsFwd mu_init sigma_init A sigma_states C sigma_obs data T,
      (rtsFwd_spec mu_init sigma_init A sigma_states C sigma_obs data T).1]

theorem C6_witness :
    (0 : ℕ) < 1 ∧
    ((kalman_filter (0 : Vec 1) (0 : Mat 1 1) (fun _ => 0) (fun _ => 0)
        (fun _ => (0 : Mat 1 1)) (fun _ => 0) (fun _ => none) 1).1
      = (rts_smoother (0 : Vec 1) (0 : Mat 1 1) (fun _ => 0) (fun _ => 0)
        (fun _ => (0 : Mat 1 1)) (fun _ => 0) (fun _ => none) 1).1
    ∧ (kalman_filter (0 : Vec 1) (0 : Mat 1 1) (fun _ => 0) (fun _ => 0)
        (fun _ => (0 : Mat 1 1)) (fun _ => 0) (fun _ => none) 1).1
      = (filter_and_sample (0 : Vec 1) (0 : Mat 1 1) (fun _ => 0) (fun _ => 0)
        (fun _ => (0 : Mat 1 1)) (fun _ => 0) (fun _ => none) (fun _ => 0) 1).1
    ∧ (kalman_filter (0 : Vec 1) (0 : Mat 1 1) (fun _ => 0) (fun _ => 0)
        (fun _ => (0 : Mat 1 1)) (fun _ => 0) (fun _ => none) 1).1
      = (E_step (0 : Vec 1) (0 : Mat 1 1) (fun _ => 0) (fun _ => 0)
        (fun _ => (0 : Mat 1 1)) (fun _ => 0) (fun _ => none) 1).1) :=
  ⟨Nat.one_pos, C6_loglik_agreement 1 Nat.one_pos 0 0 _ _ _ _ _ _⟩

/-- C3: at every timestep whose data row carries the missing sentinel (first
coordinate NaN, modelled as none), the filtered mean and covariance equal the
one-step prediction carried into that step, and the log-likelihood
accumulator is unchanged by the step (the contribution is exactly 0). -/
theorem C3_missing_data_identity {n p : ℕ} (T : ℕ)
    (mu_init : Vec n) (sigma_init : Mat n n) (A sigma_states : ℕ → Mat n n)
    (C : ℕ → Mat p n) (sigma_obs : ℕ → Mat p p) (data : ℕ → Option (Vec p))
    (t : Fin T) (hmiss : data t = none) :
    (kalman_filter mu_init sigma_init A sigma_states C sigma_obs data T).2.1 t
      = (kfState mu_init sigma_init A sigma_states C sigma_obs data t).muPredict
    ∧ (kalman_filter mu_init sigma_init A sigma_states C sigma_obs data T).2.2 t
      = (kfState mu_init sigma_init A sigma_states C sigma_obs data t).sigmaPredict
    ∧ (kfState mu_init sigma_init A sigma_states C sigma_obs data (t + 1)).ll
      = (kfState mu_init sigma_init A sigma_states C sigma_obs data t).ll := by
  have hcond : kfFiltered mu_init sigma_init A sigma_states C sigma_obs data t
      = ((kfState mu_init sigma_init A sigma_states C sigma_obs data t).muPredict,
         (kfState mu_init sigma_init A sigma_states C sigma_obs data t).sigmaPredict, 0) := by
    simp only [kfFiltered, hmiss, condition_on]
  refine ⟨?_, ?_, ?_⟩
  · simp only [kalman_filter, hcond]
  · simp only [kalman_filter, hcond]
  · simp only [kfState, kfFiltered, hmiss, condition_on, add_zero]

theorem C3_witness :
    ((fun _ => none : ℕ → Option (Vec 1)) ((0 : Fin 1) : ℕ) = none) ∧
    ((kalman_filter (0 : Vec 1) (0 : Mat 1 1) (fun _ => 0) (fun _ => 0)
        (fun _ => (0 : Mat 1 1)) (fun _ => 0) (fun _ => none) 1).2.1 0
      = (kfState (0 : Vec 1) (0 : Mat 1 1) (fun _ => 0) (fun _ => 0)
        (fun _ => (0 : Mat 1 1)) (fun _ => 0) (fun _ => none) ((0 : Fin 1) : ℕ)).muPredict
    ∧ (kalman_filter (0 : Vec 1) (0 : Mat 1 1) (fun _ => 0) (fun _ => 0)
        (fun _ => (0 : Mat 1 1)) (fun _ => 0) (fun _ => none) 1).2.2 0
      = (kfState (0 : Vec 1) (0 : Mat 1 1) (fun _ => 0) (fun _ => 0)
        (fun _ => (0 : Mat 1 1)) (fun _ => 0) (fun _ => none) ((0 : Fin 1) : ℕ)).sigmaPredict
    ∧ (kfState (0 : Vec 1) (0 : Mat 1 1) (fun _ => 0) (fun _ => 0)
        (fun _ => (0 : Mat 1 1)) (fun _ => 0) (fun _ => none) (((0 : Fin 1) : ℕ) + 1)).ll
      = (kfState (0 : Vec 1) (0 : Mat 1 1) (fun _ => 0) (fun _ => 0)
        (fun _ => (0 : Mat 1 1)) (fun _ => 0) (fun _ => none) ((0 : Fin 1) : ℕ)).ll) :=
  ⟨rfl, C3_missing_data_identity 1 0 0 _ _ _ _ _ 0 rfl⟩

/-- C10: with a single observation (T = 1) every orchestration routine
succeeds with zero backward iterations: rts_smoother returns exactly the
kalman_filter output, E_step returns the kalman_filter log-likelihood and
filtered sequences together with the empty second-moment sequence, and
filter_and_sample returns the forward log-likelihood and the single draw
from the final filtered belief. -/
theorem C10_single_observation {n p : ℕ}
    (mu_init : Vec n) (sigma_init : Mat n n) (A sigma_states : ℕ → Mat n n)
    (C : ℕ → Mat p n) (sigma_obs : ℕ → Mat p p) (data : ℕ → Option (Vec p))
    (randseq : ℕ → Vec n) :
    rts_smoother mu_init sigma_init A sigma_states C sigma_obs data 1
      = kalman_filter mu_init sigma_init A sigma_states C sigma_obs data 1
    ∧ (E_step mu_init sigma_init A sigma_states C sigma_obs data 1).1
      = (kalman_filter mu_init sigma_init A sigma_states C sigma_obs data 1).1
    ∧ (E_step mu_init sigma_init A sigma_states C sigma_obs data 1).2.1
      = (kalman_filter mu_init sigma_init A sigma_states C sigma_obs data 1).2.1
    ∧ (E_step mu_init sigma_init A sigma_states C sigma_obs data 1).2.2.1
      = (kalman_filter mu_init sigma_init A sigma_states C sigma_obs data 1).2.2
    ∧ (E_step mu_init sigma_init A sigma_states C sigma_obs data 1).2.2.2
      = Fin.elim0
    ∧ (filter_and_sample mu_init sigma_init A sigma_states C sigma_obs data randseq 1).1
      = (kalman_filter mu_init sigma_init A sigma_states C sigma_obs data 1).1
    ∧ (filter_and_sample mu_init sigma_init A sigma_states C sigma_obs data randseq 1).2
      = (fun _ : Fin 1 => sample_gaussian
          ((kalman_filter mu_init sigma_init A sigma_states C sigma_obs data 1).2.1 0)
          ((kalman_filter mu_init sigma_init A sigma_states C sigma_obs data 1).2.2 0)
          (randseq 0)) := by
  have hfwd := rtsFwd_spec mu_init sigma_init A sigma_states C sigma_obs data 1
  have hmus : ∀ t : Fin 1,
      (rtsFwd mu_init sigma_init A sigma_states C sigma_obs data 1).smoothedMus t
        = (kfFiltered mu_init sigma_init A sigma_states C sigma_obs data t).1 := by
    intro t
    exact (hfwd.2.2 t t.isLt).1
  have hsigs : ∀ t : Fin 1,
      (rtsFwd mu_init sigma_init A sigma_states C sigma_obs data 1).smoothedSigmas t
        = (kfFiltered mu_init sigma_init A sigma_states C sigma_obs data t).2.1 := by
    intro t
    exact (hfwd.2.2 t t.isLt).2
  have hnil : (List.range (1 - 1)).reverse = ([] : List ℕ) := rfl
  refine ⟨?_, ?_, ?_, ?_, ?_, ?_, ?_⟩
  · simp only [rts_smoother, kalman_filter, rtsBack, hnil, List.foldl_nil]
    refine Prod.ext hfwd.1 (Prod.ext ?_ ?_)
    · funext t
      exact hmus t
    · funext t
      exact hsigs t
  · simp only [E_step, kalman_filter,
      esFwd_eq_rtsFwd mu_init sigma_init A sigma_states C sigma_obs data 1, hfwd.1]
  · funext t
    simp only [E_step, kalman_filter, esBack, hnil, List.foldl_nil,
      esFwd_eq_rtsFwd mu_init sigma_init A sigma_states C sigma_obs data]
    exact hmus t
  · funext t
    simp only [E_step, kalman_filter, esBack, hnil, List.foldl_nil,
      esFwd_eq_rtsFwd mu_init sigma_init A sigma_states C sigma_obs data]
    exact hsigs t
  · funext t
    exact t.elim0
  · simp only [filter_and_sample, kalman_filter,
      fsFwd_eq_kfState mu_init sigma_init A sigma_states C sigma_obs data 1]
  · funext t
    have ht : (t : ℕ) = 0 := by omega
    simp only [filter_and_sample, kalman_filter, fsBack, hnil, List.foldl_nil, ht,
      Nat.sub_self, Fin.val_zero,
      fsFiltered_eq_kfFiltered mu_init sigma_init A sigma_states C sigma_obs data]
    rw [ht, Function.update_same]

end

noncomputable section

/-- Write value v into the buffer at address a of a two-buffer memory. -/
def bufWrite {α : Type*} (m : Bool → α) (a : Bool) (v : α) : Bool → α :=
  fun b => if b = a then v else m b

/-- condition_on executed over explicit buffer storage (source lines 233-277
with the pointer-equality guards at lines 264 and 269 made explicit).  The
mu_x / sigma_x buffers live at address false; when aliased is true the
mu_cond / sigma_cond arguments are the very same storage (address false),
otherwise they are distinct buffers at address true whose initial (np.empty)
contents are muCond0 / sigmaCond0.  Reads and writes happen in source order;
the dcopy calls at 264-265 and 269-270 are skipped exactly when the
corresponding pointers coincide, and the dgemm/dgemv calls with beta = 1
read their accumulation target from the buffer they write.  Returns the
final contents of the mu_cond and sigma_cond buffers and the returned ll. -/
def condition_onBuf {n p : ℕ} (aliased : Bool) (mu_x : Vec n) (sigma_x : Mat n n)
    (C : Mat p n) (sigma_obs : Mat p p) (y : Option (Vec p))
    (muCond0 : Vec n) (sigmaCond0 : Mat n n) : Vec n × Mat n n × ℝ :=
  let condAddr : Bool := !aliased
  let mem0 : Bool → Vec n := fun a => if a then muCond0 else mu_x
  let smem0 : Bool → Mat n n := fun a => if a then sigmaCond0 else sigma_x
  match y with
  | none =>
    -- lines 248-249: unconditional dcopy of the prior into the posterior buffers
    let mem1 := bufWrite mem0 condAddr (mem0 false)
    let smem1 := bufWrite smem0 condAddr (smem0 false)
    (mem1 condAddr, smem1 condAddr, 0)
  | some yv =>
    let tpn : Mat p n := C * (smem0 false).transpose                 -- 254
    let Sbuf : Mat p p := sigma_obs.transpose + tpn * C.transpose    -- 255-256
    let LM : Mat p p := (dpotrf Sbuf).1                              -- 257
    let r : Vec p := yv - C.mulVec (mem0 false)                      -- 259-260
    let z : Vec p := dtrtrsVecLN LM r                                -- 261
    let w : Vec p := dtrtrsVecLT LM z                                -- 263
    -- 264-265: copy mu_x into mu_cond unless the pointers coincide
    let mem1 := if aliased then mem0 else bufWrite mem0 condAddr (mem0 false)
    -- 266: dgemv with beta = 1 accumulates into the mu_cond buffer
    let mem2 := bufWrite mem1 condAddr (mem1 condAddr + tpn.transpose.mulVec w)
    let V : Mat p n := dtrtrsMatLN LM tpn                            -- 268
    -- 269-270: copy sigma_x into sigma_cond unless the pointers coincide
    let smem1 := if aliased then smem0 else bufWrite smem0 condAddr (smem0 false)
    -- 272: dgemm with beta = 1 accumulates into the sigma_cond buffer
    let smem2 := bufWrite smem1 condAddr (smem1 condAddr - V.transpose * V)
    let ll : ℝ := -(1/2) * (z ⬝ᵥ z) - (p : ℝ)/2 * Real.log (2 * Real.pi)
      - ∑ i, Real.log (LM i i)
    (mem2 condAddr, smem2 condAddr, ll)

/-- C9: calling condition_on with the output buffers being the very same
storage as the input buffers (aliased = true) produces exactly the same
posterior mean, posterior covariance and log-likelihood as calling it with
distinct output buffers, whatever junk the distinct output buffers held
initially; and the distinct-buffer execution agrees with the value-level
condition_on. -/
theorem C9_inplace_aliasing_equiv {n p : ℕ} (mu_x : Vec n) (sigma_x : Mat n n)
    (C : Mat p n) (sigma_obs : Mat p p) (y : Option (Vec p))
    (muJunk muJunk' : Vec n) (sigmaJunk sigmaJunk' : Mat n n) :
    condition_onBuf true mu_x sigma_x C sigma_obs y muJunk sigmaJunk
      = condition_onBuf false mu_x sigma_x C sigma_obs y muJunk' sigmaJunk'
    ∧ condition_onBuf false mu_x sigma_x C sigma_obs y muJunk' sigmaJunk'
      = condition_on mu_x sigma_x C sigma_obs y := by
  cases y with
  | none =>
    constructor <;> simp [condition_onBuf, condition_on, bufWrite]
  | some yv =>
    constructor <;> simp [condition_onBuf, condition_on, bufWrite]

end

noncomputable section

lemma symmLower_zero {p : ℕ} : symmLower (0 : Mat p p) = 0 := by
  ext i j
  simp [symmLower]

/-- The zero matrix (p >= 1) has no Cholesky factor: the factorization of a
singular innovation covariance fails. -/
lemma not_isCholeskyFactor_zero {p : ℕ} (hp : 0 < p) :
    ¬∃ L : Mat p p, IsCholeskyFactor L (0 : Mat p p) := by
  rintro ⟨L, _, hpos, hfac⟩
  set i : Fin p := ⟨0, hp⟩
  have h1 : (L * L.transpose) i i = 0 := by rw [hfac]; rfl
  have h2 : (L * L.transpose) i i = ∑ k, L i k * L i k := by
    simp [Matrix.mul_apply, Matrix.transpose_apply]
  have h3 : 0 < ∑ k, L i k * L i k := by
    refine Finset.sum_pos' (fun k _ => mul_self_nonneg _) ⟨i, Finset.mem_univ i, ?_⟩
    exact mul_pos (hpos i) (hpos i)
  rw [h2] at h1
  exact absurd h1 (ne_of_gt h3)

lemma dpotrf_zero {p : ℕ} (hp : 0 < p) : dpotrf (0 : Mat p p) = (0, 1) := by
  rw [dpotrf, dif_neg]
  rw [symmLower_zero]
  exact not_isCholeskyFactor_zero hp

/-- With C = 0 and sigma_obs = 0 the innovation covariance buffer is the zero
matrix, its factorization fails (status 1, never inspected), the zero-diagonal
checks make both triangular solves no-ops, and condition_on returns the prior
unchanged as posterior. -/
lemma condition_on_zero_obs {n p : ℕ} (hp : 0 < p) (mu_x : Vec n)
    (sigma_x : Mat n n) (y : Vec p) :
    (condition_on mu_x sigma_x (0 : Mat p n) (0 : Mat p p) (some y)).1 = mu_x
    ∧ (condition_on mu_x sigma_x (0 : Mat p n) (0 : Mat p p) (some y)).2.1 = sigma_x := by
  have hS : ((0 : Mat p p).transpose
      + ((0 : Mat p n) * sigma_x.transpose) * (0 : Mat p n).transpose) = (0 : Mat p p) := by
    simp
  have hguard : ¬∀ i : Fin p, ((dpotrf (0 : Mat p p)).1 : Mat p p) i i ≠ 0 := by
    rw [dpotrf_zero hp]
    push_neg
    exact ⟨⟨0, hp⟩, rfl⟩
  constructor
  · simp only [condition_on, hS, dtrtrsVecLT, dtrtrsVecLN, if_neg hguard]
    simp
  · simp only [condition_on, hS, dtrtrsMatLN, if_neg hguard]
    simp

/-- Error type of the spec's numerical-degeneracy failure contract. -/
inductive NumError where
  | degenerate
deriving DecidableEq

/-- Modelled from the spec (sections 4.1, 6 and 7): the variant of
condition_on that the spec describes, in which a Cholesky factorization
failure (nonzero status from dpotrf on the innovation covariance) is fatal
and surfaces as a numerical-degeneracy error instead of being ignored. -/
def condition_onChecked {n p : ℕ} (mu_x : Vec n) (sigma_x : Mat n n)
    (C : Mat p n) (sigma_obs : Mat p p) (y : Option (Vec p)) :
    Except NumError (Vec n × Mat n n × ℝ) :=
  match y with
  | none => Except.ok (mu_x, sigma_x, 0)
  | some yv =>
    let tpn : Mat p n := C * sigma_x.transpose
    let Sbuf : Mat p p := sigma_obs.transpose + tpn * C.transpose
    if (dpotrf Sbuf).2 ≠ 0 then Except.error NumError.degenerate
    else Except.ok (condition_on mu_x sigma_x C sigma_obs (some yv))

/-- Modelled from the spec (sections 6 and 7): the forward recursion of
kalman_filter under the spec's abort-on-degeneracy contract: any Cholesky
failure aborts the entire routine. -/
def kfStateChecked {n p : ℕ} (mu_init : Vec n) (sigma_init : Mat n n)
    (A sigma_states : ℕ → Mat n n) (C : ℕ → Mat p n) (sigma_obs : ℕ → Mat p p)
    (data : ℕ → Option (Vec p)) : ℕ → Except NumError (KFState n)
  | 0 => Except.ok ⟨mu_init, sigma_init, 0⟩
  | t + 1 => do
    let s ← kfStateChecked mu_init sigma_init A sigma_states C sigma_obs data t
    let c ← condition_onChecked s.muPredict s.sigmaPredict (C t) (sigma_obs t) (data t)
    let pr := predict c.1 c.2.1 (A t) (sigma_states t)
    return ⟨pr.1, pr.2, s.ll + c.2.2⟩

/-- Modelled from the spec (sections 6 and 7): kalman_filter under the spec's
failure contract: it aborts with a numerical-degeneracy error, producing no
output, whenever a Cholesky factorization inside conditioning fails; on
inputs where every factorization succeeds it returns the kalman_filter
output. -/
def kalman_filterChecked {n p : ℕ} (mu_init : Vec n) (sigma_init : Mat n n)
    (A sigma_states : ℕ → Mat n n) (C : ℕ → Mat p n) (sigma_obs : ℕ → Mat p p)
    (data : ℕ → Option (Vec p)) (T : ℕ) :
    Except NumError (ℝ × (Fin T → Vec n) × (Fin T → Mat n n)) :=
  (kfStateChecked mu_init sigma_init A sigma_states C sigma_obs data T).map fun s =>
    (s.ll,
     fun t => (kfFiltered mu_init sigma_init A sigma_states C sigma_obs data t).1,
     fun t => (kfFiltered mu_init sigma_init A sigma_states C sigma_obs data t).2.1)

/-- The unconditioned propagation of the initial belief through predict
alone (the value the filter degenerates to when every observation is
uninformative). -/
def priorPropagate {n : ℕ} (mu_init : Vec n) (sigma_init : Mat n n)
    (A sigma_states : ℕ → Mat n n) : ℕ → Vec n × Mat n n
  | 0 => (mu_init, sigma_init)
  | t + 1 =>
    predict (priorPropagate mu_init sigma_init A sigma_states t).1
      (priorPropagate mu_init sigma_init A sigma_states t).2 (A t) (sigma_states t)

/-- With C = 0, sigma_obs = 0 and every data row present, every step's
Cholesky fails, yet the forward recursion carries the prior propagation. -/
lemma kfState_zero_obs {n p : ℕ} (hp : 0 < p)
    (mu_init : Vec n) (sigma_init : Mat n n) (A sigma_states : ℕ → Mat n n)
    (data : ℕ → Option (Vec p)) (hdata : ∀ t, ∃ v, data t = some v) (t : ℕ) :
    (kfState mu_init sigma_init A sigma_states (fun _ => 0) (fun _ => 0) data t).muPredict
      = (priorPropagate mu_init sigma_init A sigma_states t).1
    ∧ (kfState mu_init sigma_init A sigma_states (fun _ => 0) (fun _ => 0) data t).sigmaPredict
      = (priorPropagate mu_init sigma_init A sigma_states t).2 := by
  induction t with
  | zero => exact ⟨rfl, rfl⟩
  | succ t ih =>
    obtain ⟨v, hv⟩ := hdata t
    have hc := condition_on_zero_obs (n := n) hp
      (kfState mu_init sigma_init A sigma_states (fun _ => 0) (fun _ => 0) data t).muPredict
      (kfState mu_init sigma_init A sigma_states (fun _ => 0) (fun _ => 0) data t).sigmaPredict v
    constructor
    · simp only [kfState, hv, priorPropagate]
      rw [hc.1, hc.2, ih.1, ih.2]
    · simp only [kfState, hv, priorPropagate]
      rw [hc.1, hc.2, ih.1, ih.2]

/-- With C = 0, sigma_obs = 0 and the first data row present, the checked
forward recursion aborts at the first step and stays aborted. -/
lemma kfStateChecked_zero_obs {n p : ℕ} (hp : 0 < p)
    (mu_init : Vec n) (sigma_init : Mat n n) (A sigma_states : ℕ → Mat n n)
    (data : ℕ → Option (Vec p)) (hdata : ∀ t, ∃ v, data t = some v) (t : ℕ) (ht : 0 < t) :
    kfStateChecked mu_init sigma_init A sigma_states (fun _ => 0) (fun _ => 0) data t
      = Except.error NumError.degenerate := by
  induction t with
  | zero => exact absurd ht (lt_irrefl 0)
  | succ t ih =>
    rcases Nat.eq_zero_or_pos t with h0 | hpos
    · subst h0
      obtain ⟨v, hv⟩ := hdata 0
      simp [kfStateChecked, condition_onChecked, hv, dpotrf_zero hp]
      rfl
    · rw [kfStateChecked, ih hpos]
      rfl

/-- C1 counterexample: a concrete one-dimensional input (C = 0, sigma_obs = 0,
a present observation) on which the innovation covariance is the singular
zero matrix, so the spec-mandated abort-on-degeneracy variant fails with a
numerical-degeneracy error -- yet kalman_filter returns a fully populated
output (the prior belief passed through), contradicting the claim that the
routine aborts and produces no output. -/
theorem C1_counterexample :
    kalman_filterChecked (fun _ => 3 : Vec 1) (fun _ _ => 2 : Mat 1 1)
        (fun _ => 0) (fun _ => 0) (fun _ => (0 : Mat 1 1)) (fun _ => 0)
        (fun _ => some (fun _ => 5)) 1
      = Except.error NumError.degenerate
    ∧ (kalman_filter (fun _ => 3 : Vec 1) (fun _ _ => 2 : Mat 1 1)
        (fun _ => 0) (fun _ => 0) (fun _ => (0 : Mat 1 1)) (fun _ => 0)
        (fun _ => some (fun _ => 5)) 1).2.1
      = (fun _ _ => 3)
    ∧ (kalman_filter (fun _ => 3 : Vec 1) (fun _ _ => 2 : Mat 1 1)
        (fun _ => 0) (fun _ => 0) (fun _ => (0 : Mat 1 1)) (fun _ => 0)
        (fun _ => some (fun _ => 5)) 1).2.2
      = (fun _ _ _ => 2) := by
  refine ⟨?_, ?_, ?_⟩
  · rw [kalman_filterChecked,
      kfStateChecked_zero_obs Nat.one_pos _ _ _ _ _ (fun t => ⟨_, rfl⟩) 1 Nat.one_pos]
    rfl
  · funext t
    have ht : (t : ℕ) = 0 := by omega
    have hc := condition_on_zero_obs (n := 1) (p := 1) Nat.one_pos
      (fun _ => 3) (fun _ _ => 2) (fun _ => 5)
    simp only [kalman_filter, kfFiltered, ht, kfState]
    exact hc.1
  · funext t
    have ht : (t : ℕ) = 0 := by omega
    have hc := condition_on_zero_obs (n := 1) (p := 1) Nat.one_pos
      (fun _ => 3) (fun _ _ => 2) (fun _ => 5)
    simp only [kalman_filter, kfFiltered, ht, kfState]
    exact hc.2

/-- C1 amended: no routine inspects the Cholesky status, so a factorization
failure does not abort and output is produced regardless.  Stated through the
family C = 0, sigma_obs = 0 with all observations present: every innovation
covariance is the singular zero matrix, the spec's abort-on-degeneracy
variant rejects the input, yet kalman_filter runs to completion and returns
fully populated filtered means and covariances (the prior propagation, since
the zero-diagonal checks of the triangular solves turn the degenerate update
into a no-op). -/
theorem C1_amended_no_abort {n p : ℕ} (T : ℕ) (hT : 0 < T) (hp : 0 < p)
    (mu_init : Vec n) (sigma_init : Mat n n) (A sigma_states : ℕ → Mat n n)
    (data : ℕ → Option (Vec p)) (hdata : ∀ t, ∃ v, data t = some v) :
    kalman_filterChecked mu_init sigma_init A sigma_states
        (fun _ => 0) (fun _ => 0) data T = Except.error NumError.degenerate
    ∧ ∀ t : Fin T,
        (kalman_filter mu_init sigma_init A sigma_states
            (fun _ => 0) (fun _ => 0) data T).2.1 t
          = (priorPropagate mu_init sigma_init A sigma_states t).1
        ∧ (kalman_filter mu_init sigma_init A sigma_states
            (fun _ => 0) (fun _ => 0) data T).2.2 t
          = (priorPropagate mu_init sigma_init A sigma_states t).2 := by
  constructor
  · rw [kalman_filterChecked,
      kfStateChecked_zero_obs hp mu_init sigma_init A sigma_states data hdata T hT]
    rfl
  · intro t
    obtain ⟨v, hv⟩ := hdata t
    have hst := kfState_zero_obs hp mu_init sigma_init A sigma_states data hdata t
    have hc := condition_on_zero_obs (n := n) hp
      (kfState mu_init sigma_init A sigma_states (fun _ => 0) (fun _ => 0) data t).muPredict
      (kfState mu_init sigma_init A sigma_states (fun _ => 0) (fun _ => 0) data t).sigmaPredict v
    constructor
    · simp only [kalman_filter, kfFiltered, hv]
      rw [hc.1, hst.1]
    · simp only [kalman_filter, kfFiltered, hv]
      rw [hc.2, hst.2]

theorem C1_amended_witness :
    ((0 : ℕ) < 1 ∧ (0 : ℕ) < 1 ∧ ∀ t : ℕ, ∃ v : Vec 1, some (fun _ => 5) = some v) ∧
    (kalman_filterChecked (fun _ => 3 : Vec 1) (fun _ _ => 2 : Mat 1 1)
        (fun _ => 0) (fun _ => 0) (fun _ => (0 : Mat 1 1)) (fun _ => 0)
        (fun _ => some (fun _ => 5)) 1 = Except.error NumError.degenerate
    ∧ ∀ t : Fin 1,
        (kalman_filter (fun _ => 3 : Vec 1) (fun _ _ => 2 : Mat 1 1)
            (fun _ => 0) (fun _ => 0) (fun _ => (0 : Mat 1 1)) (fun _ => 0)
            (fun _ => some (fun _ => 5)) 1).2.1 t
          = (priorPropagate (fun _ => 3) (fun _ _ => 2) (fun _ => 0) (fun _ => 0) t).1
        ∧ (kalman_filter (fun _ => 3 : Vec 1) (fun _ _ => 2 : Mat 1 1)
            (fun _ => 0) (fun _ => 0) (fun _ => (0 : Mat 1 1)) (fun _ => 0)
            (fun _ => some (fun _ => 5)) 1).2.2 t
          = (priorPropagate (fun _ => 3) (fun _ _ => 2) (fun _ => 0) (fun _ => 0) t).2) :=
  ⟨⟨Nat.one_pos, Nat.one_pos, fun _ => ⟨_, rfl⟩⟩,
   C1_amended_no_abort 1 Nat.one_pos Nat.one_pos _ _ _ _ _ (fun _ => ⟨_, rfl⟩)⟩

end

noncomputable section

/-- The kalman_filter forward recursion reads only data rows 0..t-1. -/
lemma kfState_congr_data {n p : ℕ} (mu_init : Vec n) (sigma_init : Mat n n)
    (A sigma_states : ℕ → Mat n n) (C : ℕ → Mat p n) (sigma_obs : ℕ → Mat p p)
    (data data' : ℕ → Option (Vec p)) (t : ℕ) (h : ∀ s, s < t → data s = data' s) :
    kfState mu_init sigma_init A sigma_states C sigma_obs data t
      = kfState mu_init sigma_init A sigma_states C sigma_obs data' t := by
  induction t with
  | zero => rfl
  | succ t ih =>
    simp only [kfState, ih fun s hs => h s (Nat.lt_succ_of_lt hs),
      h t (Nat.lt_succ_self t)]

/-- kalman_filter as invoked on raw buffers.  The y argument is a buffer of
declared leading dimension dataLen (data.shape[0]); the source disables
boundscheck and wraparound, so row t is read from memory for every
t = 0..T-1, in or out of the declared range, and dataMem models the memory
contents at every row slot.  T, p, n are taken from the shape of C alone
(source line 42); dataLen is never consulted. -/
def kalman_filterRaw {n p : ℕ} (mu_init : Vec n) (sigma_init : Mat n n)
    (A sigma_states : ℕ → Mat n n) (C : ℕ → Mat p n) (sigma_obs : ℕ → Mat p p)
    (dataLen : ℕ) (dataMem : ℕ → Option (Vec p)) (T : ℕ) :
    ℝ × (Fin T → Vec n) × (Fin T → Mat n n) :=
  kalman_filter mu_init sigma_init A sigma_states C sigma_obs dataMem T

/-- Error type of the spec's dimension-mismatch failure contract. -/
inductive DimError where
  | mismatch
deriving DecidableEq

/-- Modelled from the spec (sections 6 and 7(a)): T is inferred from the
leading dimensions of C and y, which must agree; an inconsistent leading
dimension of y is detected before any arithmetic begins and is fatal to the
call, never silently coerced. -/
def kalman_filterDimChecked {n p : ℕ} (mu_init : Vec n) (sigma_init : Mat n n)
    (A sigma_states : ℕ → Mat n n) (C : ℕ → Mat p n) (sigma_obs : ℕ → Mat p p)
    (dataLen : ℕ) (dataMem : ℕ → Option (Vec p)) (T : ℕ) :
    Except DimError (ℝ × (Fin T → Vec n) × (Fin T → Mat n n)) :=
  if dataLen = T then
    Except.ok (kalman_filterRaw mu_init sigma_init A sigma_states C sigma_obs
      dataLen dataMem T)
  else Except.error DimError.mismatch

/-- C2 counterexample: a concrete input whose y buffer has declared leading
dimension 0 while C has leading dimension T = 1.  The spec-mandated
dimension check rejects the call, but kalman_filter performs no check at
all: it reads the out-of-range row and returns a fully populated output. -/
theorem C2_counterexample :
    kalman_filterDimChecked (0 : Vec 1) (0 : Mat 1 1) (fun _ => 0) (fun _ => 0)
        (fun _ => (0 : Mat 1 1)) (fun _ => 0) 0 (fun _ => none) 1
      = Except.error DimError.mismatch
    ∧ kalman_filterRaw (0 : Vec 1) (0 : Mat 1 1) (fun _ => 0) (fun _ => 0)
        (fun _ => (0 : Mat 1 1)) (fun _ => 0) 0 (fun _ => none) 1
      = (0, fun _ => 0, fun _ => 0) := by
  constructor
  · rfl
  · refine Prod.ext ?_ (Prod.ext ?_ ?_)
    · simp [kalman_filterRaw, kalman_filter, kfState, condition_on]
    · funext t
      have ht : (t : ℕ) = 0 := by omega
      simp [kalman_filterRaw, kalman_filter, kfFiltered, ht, kfState, condition_on]
    · funext t
      have ht : (t : ℕ) = 0 := by omega
      simp [kalman_filterRaw, kalman_filter, kfFiltered, ht, kfState, condition_on]

/-- C2 amended: the routines perform no dimension validation at all: T, p, n
are taken from C alone, the declared leading dimension of the y buffer is
never consulted, and rows 0..T-1 of y are read unchecked.  Formally, the
kalman_filter output is entirely independent of the declared leading
dimension and of the buffer contents at row slots at or beyond T; a
mismatched y is processed, never detected or rejected. -/
theorem C2_amended_no_dimension_check {n p : ℕ} (mu_init : Vec n)
    (sigma_init : Mat n n) (A sigma_states : ℕ → Mat n n) (C : ℕ → Mat p n)
    (sigma_obs : ℕ → Mat p p) (dataLen dataLen' : ℕ)
    (dataMem dataMem' : ℕ → Option (Vec p)) (T : ℕ)
    (hagree : ∀ t, t < T → dataMem t = dataMem' t) :
    kalman_filterRaw mu_init sigma_init A sigma_states C sigma_obs
        dataLen dataMem T
      = kalman_filterRaw mu_init sigma_init A sigma_states C sigma_obs
        dataLen' dataMem' T := by
  have hst : ∀ t, t ≤ T →
      kfState mu_init sigma_init A sigma_states C sigma_obs dataMem t
        = kfState mu_init sigma_init A sigma_states C sigma_obs dataMem' t :=
    fun t htT => kfState_congr_data mu_init sigma_init A sigma_states C sigma_obs
      dataMem dataMem' t (fun s hs => hagree s (lt_of_lt_of_le hs htT))
  unfold kalman_filterRaw kalman_filter
  refine Prod.ext ?_ (Prod.ext ?_ ?_)
  · rw [hst T le_rfl]
  · funext t
    simp only [kfFiltered, hst t (le_of_lt t.isLt), hagree t t.isLt]
  · funext t
    simp only [kfFiltered, hst t (le_of_lt t.isLt), hagree t t.isLt]

theorem C2_amended_witness :
    (∀ t : ℕ, t < 1 →
      (fun _ => none : ℕ → Option (Vec 1)) t = (fun _ => none : ℕ → Option (Vec 1)) t) ∧
    kalman_filterRaw (0 : Vec 1) (0 : Mat 1 1) (fun _ => 0) (fun _ => 0)
        (fun _ => (0 : Mat 1 1)) (fun _ => 0) 0 (fun _ => none) 1
      = kalman_filterRaw (0 : Vec 1) (0 : Mat 1 1) (fun _ => 0) (fun _ => 0)
        (fun _ => (0 : Mat 1 1)) (fun _ => 0) 5 (fun _ => none) 1 :=
  ⟨fun _ _ => rfl,
   C2_amended_no_dimension_check 0 0 (fun _ => 0) (fun _ => 0) (fun _ => 0)
     (fun _ => 0) 0 5 (fun _ => none) (fun _ => none) 1 (fun _ _ => rfl)⟩

end

noncomputable section

lemma tril_eq_self {n : ℕ} {L : Mat n n} (hL : ∀ i j : Fin n, i < j → L i j = 0) :
    tril L = L := by
  ext i j
  by_cases h : j ≤ i
  · simp [tril, h]
  · simp [tril, h, (hL i j (lt_of_not_le h)).symm]

lemma tril_writeLower {n : ℕ} {L M : Mat n n} (hL : ∀ i j : Fin n, i < j → L i j = 0) :
    tril (writeLower L M) = L := by
  ext i j
  by_cases h : j ≤ i
  · simp [tril, writeLower, h]
  · simp [tril, writeLower, h, (hL i j (lt_of_not_le h)).symm]

lemma writeLower_diag {n : ℕ} (L M : Mat n n) (i : Fin n) :
    writeLower L M i i = L i i := by
  simp [writeLower]

lemma symmLower_eq_of_symm {n : ℕ} {S : Mat n n} (h : S.transpose = S) :
    symmLower S = S := by
  ext i j
  by_cases hij : j ≤ i
  · simp [symmLower, hij]
  · simp only [symmLower, Matrix.of_apply, if_neg hij]
    conv_rhs => rw [← h]
    rfl

lemma IsCholeskyFactor.blockTri {n : ℕ} {L S : Mat n n}
    (h : IsCholeskyFactor L S) : L.BlockTriangular OrderDual.toDual :=
  fun i j hij => h.1 i j hij

lemma IsCholeskyFactor.detPos {n : ℕ} {L S : Mat n n}
    (h : IsCholeskyFactor L S) : 0 < L.det := by
  rw [Matrix.det_of_lowerTriangular L h.blockTri]
  exact Finset.prod_pos fun i _ => h.2.1 i

lemma IsCholeskyFactor.isUnitDet {n : ℕ} {L S : Mat n n}
    (h : IsCholeskyFactor L S) : IsUnit L.det :=
  h.detPos.ne'.isUnit

/-- Any positive definite real matrix has a lower-triangular Cholesky factor
with positive diagonal (obtained from the Mathlib LDL decomposition, with the
diagonal absorbed as its square root and signs normalised). -/
lemma posDef_exists_isCholeskyFactor {n : ℕ} {S : Mat n n} (hS : S.PosDef) :
    ∃ L, IsCholeskyFactor L S := by
  cases n with
  | zero =>
    refine ⟨0, fun i j _ => i.elim0, fun i => i.elim0, ?_⟩
    funext i j
    exact i.elim0
  | succ m =>
    letI : WellFoundedLT (Fin (m + 1)) := inferInstance
    letI : DecidableEq (Fin (m + 1)) := fun a b => instDecidableEq_mathlib a b
    letI := LDL.invertibleLowerInv hS
    -- diagonal entries of the LDL decomposition are positive
    have hd : ∀ i, 0 < LDL.diagEntries hS i := by
      intro i
      have hrow : LDL.lowerInv hS i ≠ 0 := by
        intro h0
        have hdet : (LDL.lowerInv hS).det = 0 :=
          Matrix.det_eq_zero_of_row_eq_zero i (fun j => congrFun h0 j)
        have hu : IsUnit (LDL.lowerInv hS).det :=
          (Matrix.isUnit_iff_isUnit_det _).mp (isUnit_of_invertible (LDL.lowerInv hS))
        rw [hdet] at hu
        exact hu.ne_zero rfl
      have hstar : star (LDL.lowerInv hS i) = LDL.lowerInv hS i := by
        funext j
        simp
      have hq := hS.2 (LDL.lowerInv hS i) hrow
      rw [hstar] at hq
      have hde : LDL.diagEntries hS i
          = LDL.lowerInv hS i ⬝ᵥ (S *ᵥ LDL.lowerInv hS i) := by
        simp only [LDL.diagEntries]
        rw [EuclideanSpace.inner_piLp_equiv_symm, star_star, hstar]
      rw [hde]
      exact hq
    -- the LDL lower factor is lower triangular
    have hLinvTri : (LDL.lowerInv hS).BlockTriangular OrderDual.toDual :=
      fun i j hij => LDL.lowerInv_triangular hS hij
    have hL0tri : (LDL.lower hS).BlockTriangular OrderDual.toDual := by
      rw [LDL.lower]
      exact Matrix.blockTriangular_inv_of_blockTriangular hLinvTri
    -- its diagonal entries are nonzero
    have hL0detUnit : IsUnit (LDL.lower hS).det := by
      rw [LDL.lower]
      exact Matrix.isUnit_nonsing_inv_det _
        ((Matrix.isUnit_iff_isUnit_det _).mp (isUnit_of_invertible (LDL.lowerInv hS)))
    have hL0diag : ∀ i, LDL.lower hS i i ≠ 0 := by
      have hdet : (LDL.lower hS).det = ∏ i, LDL.lower hS i i :=
        Matrix.det_of_lowerTriangular _ hL0tri
      intro i
      have hne : (∏ j, LDL.lower hS j j) ≠ 0 := by
        rw [← hdet]
        exact hL0detUnit.ne_zero
      exact Finset.prod_ne_zero_iff.mp hne i (Finset.mem_univ i)
    -- the unsigned Cholesky candidate
    obtain ⟨L1, hL1⟩ : ∃ L1 : Mat (m+1) (m+1),
        L1 = LDL.lower hS * Matrix.diagonal (fun i => Real.sqrt (LDL.diagEntries hS i)) :=
      ⟨_, rfl⟩
    have hL1fac : L1 * L1.transpose = S := by
      have hsq : (fun i => Real.sqrt (LDL.diagEntries hS i) * Real.sqrt (LDL.diagEntries hS i))
          = LDL.diagEntries hS := funext fun i => Real.mul_self_sqrt (le_of_lt (hd i))
      have hexp : L1 * L1.transpose
          = LDL.lower hS * LDL.diag hS * (LDL.lower hS).transpose := by
        simp only [LDL.diag]
        rw [hL1, Matrix.transpose_mul, Matrix.diagonal_transpose,
          Matrix.mul_assoc (LDL.lower hS), ← Matrix.mul_assoc (Matrix.diagonal _),
          Matrix.diagonal_mul_diagonal, hsq, Matrix.mul_assoc (LDL.lower hS)]
      rw [hexp, ← Matrix.conjTranspose_eq_transpose_of_trivial]
      exact LDL.lower_conj_diag hS
    have hL1tri : L1.BlockTriangular OrderDual.toDual := by
      rw [hL1]
      exact hL0tri.mul (Matrix.blockTriangular_diagonal _)
    have hL1diag : ∀ i, L1 i i ≠ 0 := by
      intro i
      rw [hL1, Matrix.mul_diagonal]
      exact mul_ne_zero (hL0diag i) (Real.sqrt_pos.mpr (hd i)).ne'
    -- normalise signs on the diagonal
    obtain ⟨s, hs⟩ : ∃ s : Fin (m+1) → ℝ,
        s = fun i => if L1 i i < 0 then (-1 : ℝ) else 1 := ⟨_, rfl⟩
    have hss : ∀ i, s i * s i = 1 := by
      intro i
      rw [hs]
      by_cases h : L1 i i < 0 <;> simp [h]
    refine ⟨L1 * Matrix.diagonal s, fun i j hij => ?_, fun i => ?_, ?_⟩
    · rw [Matrix.mul_diagonal]
      exact mul_eq_zero_of_left (hL1tri hij) _
    · rw [Matrix.mul_diagonal, hs]
      rcases lt_trichotomy (L1 i i) 0 with h | h | h
      · simp only [if_pos h]
        linarith
      · exact absurd h (hL1diag i)
      · simp only [if_neg (not_lt_of_gt h)]
        linarith
    · rw [Matrix.transpose_mul, Matrix.diagonal_transpose, Matrix.mul_assoc,
        ← Matrix.mul_assoc (Matrix.diagonal s), Matrix.diagonal_mul_diagonal]
      have hone : (Matrix.diagonal fun i => s i * s i) = (1 : Mat (m+1) (m+1)) := by
        rw [show (fun i => s i * s i) = fun _ => (1:ℝ) from funext hss]
        exact Matrix.diagonal_one
      rw [hone, Matrix.one_mul, hL1fac]

/-- On a symmetric positive-definite buffer, dpotrf succeeds: it reports
status 0 and writes a genuine Cholesky factor into the lower triangle. -/
lemma dpotrf_posDef {n : ℕ} {S : Mat n n} (hsymm : S.transpose = S)
    (hS : S.PosDef) :
    ∃ L, IsCholeskyFactor L S ∧ dpotrf S = (writeLower L S, 0)
      ∧ tril (dpotrf S).1 = L ∧ ∀ i, (dpotrf S).1 i i = L i i := by
  have hsl : symmLower S = S := symmLower_eq_of_symm hsymm
  have hex : ∃ L, IsCholeskyFactor L (symmLower S) := by
    obtain ⟨L0, h1, h2, h3⟩ := posDef_exists_isCholeskyFactor hS
    exact ⟨L0, h1, h2, by rw [hsl]; exact h3⟩
  have hch := Classical.choose_spec hex
  have hfac : IsCholeskyFactor (Classical.choose hex) S :=
    ⟨hch.1, hch.2.1, by rw [hch.2.2]; exact hsl⟩
  refine ⟨Classical.choose hex, hfac, ?_, ?_, ?_⟩
  · rw [dpotrf, dif_pos hex]
  · rw [dpotrf, dif_pos hex]
    exact tril_writeLower hfac.1
  · intro i
    rw [dpotrf, dif_pos hex]
    exact writeLower_diag _ _ i

end

noncomputable section

lemma IsCholeskyFactor.inv_fac {n : ℕ} {L S : Mat n n} (h : IsCholeskyFactor L S) :
    (L.transpose)⁻¹ * L⁻¹ = S⁻¹ := by
  rw [← h.2.2, Matrix.mul_inv_rev]

/-- Evaluation of the normal branch of condition_on under a symmetric prior
covariance and observation noise with positive-definite innovation
covariance: the Cholesky factorization succeeds and the outputs have the
standard closed forms (the log-likelihood expressed through the computed
factor). -/
lemma condition_on_some_eval {n p : ℕ} (mu_x : Vec n) (sigma_x : Mat n n)
    (C : Mat p n) (sigma_obs : Mat p p) (y : Vec p)
    (hsx : sigma_x.transpose = sigma_x) (hR : sigma_obs.transpose = sigma_obs)
    (hS : (C * sigma_x * C.transpose + sigma_obs).PosDef) :
    ∃ L, IsCholeskyFactor L (C * sigma_x * C.transpose + sigma_obs)
    ∧ condition_on mu_x sigma_x C sigma_obs (some y)
      = (mu_x + (sigma_x * C.transpose
            * (C * sigma_x * C.transpose + sigma_obs)⁻¹).mulVec (y - C.mulVec mu_x),
         sigma_x - sigma_x * C.transpose
            * ((C * sigma_x * C.transpose + sigma_obs)⁻¹ * (C * sigma_x)),
         -(1/2) * ((L⁻¹.mulVec (y - C.mulVec mu_x)) ⬝ᵥ (L⁻¹.mulVec (y - C.mulVec mu_x)))
           - (p : ℝ)/2 * Real.log (2 * Real.pi) - ∑ i, Real.log (L i i)) := by
  have hSbuf : sigma_obs.transpose + (C * sigma_x.transpose) * C.transpose
      = C * sigma_x * C.transpose + sigma_obs := by
    rw [hsx, hR, add_comm]
  have hSsymm : (C * sigma_x * C.transpose + sigma_obs).transpose
      = C * sigma_x * C.transpose + sigma_obs := by
    simp [Matrix.transpose_add, Matrix.transpose_mul, Matrix.transpose_transpose,
      hsx, hR, Matrix.mul_assoc]
  obtain ⟨L, hL, hdp, htril, hdiag⟩ := dpotrf_posDef hSsymm hS
  have hguard : ∀ i : Fin p, (dpotrf (C * sigma_x * C.transpose + sigma_obs)).1 i i ≠ 0 := by
    intro i
    rw [hdiag i]
    exact (hL.2.1 i).ne'
  have htl : tril (dpotrf (C * sigma_x * C.transpose + sigma_obs)).1 = L := htril
  refine ⟨L, hL, ?_⟩
  simp only [condition_on, hSbuf]
  refine Prod.ext ?_ (Prod.ext ?_ ?_)
  · -- posterior mean
    simp only [dtrtrsVecLN, dtrtrsVecLT, if_pos hguard, htl]
    rw [Matrix.transpose_mul, hsx, Matrix.mulVec_mulVec, Matrix.mulVec_mulVec, hsx,
      Matrix.mul_assoc (sigma_x * C.transpose), hL.inv_fac]
  · -- posterior covariance
    simp only [dtrtrsMatLN, if_pos hguard, htl]
    rw [Matrix.transpose_mul, Matrix.transpose_mul, hsx, Matrix.transpose_nonsing_inv, hsx,
      Matrix.mul_assoc (sigma_x * C.transpose), ← Matrix.mul_assoc ((L.transpose)⁻¹),
      hL.inv_fac]
  · -- log-likelihood
    simp only [dtrtrsVecLN, if_pos hguard, htl]
    congr 1
    exact Finset.sum_congr rfl fun i _ => by rw [hdiag i]

/-- The Gaussian log-density of y under the normal distribution with the
given mean and covariance, as the spec states it (section 4.1):
-1/2 (y-mu)ᵀ S⁻¹ (y-mu) - p/2 log(2 pi) - 1/2 log det S. -/
def gaussLogDensity {p : ℕ} (mu : Vec p) (S : Mat p p) (y : Vec p) : ℝ :=
  -(1/2) * ((y - mu) ⬝ᵥ S⁻¹.mulVec (y - mu)) - (p : ℝ)/2 * Real.log (2 * Real.pi)
    - (1/2) * Real.log S.det

/-- For any Cholesky factor L of a positive-definite S, the triangular-solve
form of the Gaussian log-density equals its closed form:
|L⁻¹ r|² = rᵀ S⁻¹ r and sum of log L i i = 1/2 log det S. -/
lemma chol_loglik_eq_gauss {p : ℕ} {S : Mat p p} (L : Mat p p)
    (hL : IsCholeskyFactor L S) (r : Vec p) :
    -(1/2) * ((L⁻¹.mulVec r) ⬝ᵥ (L⁻¹.mulVec r)) - (p : ℝ)/2 * Real.log (2 * Real.pi)
        - ∑ i, Real.log (L i i)
      = -(1/2) * (r ⬝ᵥ S⁻¹.mulVec r) - (p : ℝ)/2 * Real.log (2 * Real.pi)
        - (1/2) * Real.log S.det := by
  have hquad : (L⁻¹.mulVec r) ⬝ᵥ (L⁻¹.mulVec r) = r ⬝ᵥ S⁻¹.mulVec r := by
    rw [← hL.inv_fac, ← Matrix.mulVec_mulVec, ← Matrix.transpose_nonsing_inv]
    rw [Matrix.dotProduct_mulVec r, Matrix.vecMul_transpose]
  have hdet : Real.log S.det = 2 * ∑ i, Real.log (L i i) := by
    have hdetS : S.det = (∏ i, L i i) ^ 2 := by
      rw [← hL.2.2, Matrix.det_mul, Matrix.det_transpose,
        Matrix.det_of_lowerTriangular L hL.blockTri, sq]
    rw [hdetS, Real.log_pow, Real.log_prod _ _ fun i _ => (hL.2.1 i).ne']
    norm_num
  rw [hquad, hdet]
  ring

end

noncomputable section

/-- C4: for a symmetric prior covariance and observation noise with
positive-definite innovation covariance S = C sigma_x Cᵀ + sigma_obs,
condition_on returns posterior mean mu_x + sigma_x Cᵀ S⁻¹ (y - C mu_x),
posterior covariance sigma_x - sigma_x Cᵀ S⁻¹ C sigma_x, and log-likelihood
contribution -(1/2)|z|² - (p/2) log(2 pi) - sum_i log L_ii for every lower
Cholesky factorization S = L Lᵀ with L z = y - C mu_x; and this value equals
the Gaussian log-density of y under N(C mu_x, S). -/
theorem C4_condition_on_update {n p : ℕ} (mu_x : Vec n) (sigma_x : Mat n n)
    (C : Mat p n) (sigma_obs : Mat p p) (y : Vec p)
    (hsx : sigma_x.transpose = sigma_x) (hR : sigma_obs.transpose = sigma_obs)
    (hS : (C * sigma_x * C.transpose + sigma_obs).PosDef) :
    (condition_on mu_x sigma_x C sigma_obs (some y)).1
      = mu_x + (sigma_x * C.transpose
          * (C * sigma_x * C.transpose + sigma_obs)⁻¹).mulVec (y - C.mulVec mu_x)
    ∧ (condition_on mu_x sigma_x C sigma_obs (some y)).2.1
      = sigma_x - sigma_x * C.transpose
          * ((C * sigma_x * C.transpose + sigma_obs)⁻¹ * (C * sigma_x))
    ∧ (∀ L, IsCholeskyFactor L (C * sigma_x * C.transpose + sigma_obs) →
        (condition_on mu_x sigma_x C sigma_obs (some y)).2.2
          = -(1/2) * ((L⁻¹.mulVec (y - C.mulVec mu_x))
                ⬝ᵥ (L⁻¹.mulVec (y - C.mulVec mu_x)))
            - (p : ℝ)/2 * Real.log (2 * Real.pi) - ∑ i, Real.log (L i i))
    ∧ (condition_on mu_x sigma_x C sigma_obs (some y)).2.2
      = gaussLogDensity (C.mulVec mu_x) (C * sigma_x * C.transpose + sigma_obs) y := by
  obtain ⟨L0, hL0, heq⟩ := condition_on_some_eval mu_x sigma_x C sigma_obs y hsx hR hS
  have hgauss : (condition_on mu_x sigma_x C sigma_obs (some y)).2.2
      = gaussLogDensity (C.mulVec mu_x) (C * sigma_x * C.transpose + sigma_obs) y := by
    rw [heq, gaussLogDensity]
    exact chol_loglik_eq_gauss L0 hL0 _
  refine ⟨?_, ?_, ?_, hgauss⟩
  · rw [heq]
  · rw [heq]
  · intro L hLf
    rw [hgauss, gaussLogDensity]
    exact (chol_loglik_eq_gauss L hLf _).symm

theorem C4_witness :
    ((0 : Mat 1 1).transpose = 0 ∧ (1 : Mat 1 1).transpose = 1
      ∧ ((0 : Mat 1 1) * (0 : Mat 1 1) * (0 : Mat 1 1).transpose + 1).PosDef) ∧
    ((condition_on (fun _ => 0 : Vec 1) (0 : Mat 1 1) (0 : Mat 1 1) (1 : Mat 1 1)
        (some (fun _ => 0))).1
      = (fun _ => 0 : Vec 1) + ((0 : Mat 1 1) * (0 : Mat 1 1).transpose
          * ((0 : Mat 1 1) * (0 : Mat 1 1) * (0 : Mat 1 1).transpose + 1)⁻¹).mulVec
          ((fun _ => 0) - (0 : Mat 1 1).mulVec (fun _ => 0))
    ∧ (condition_on (fun _ => 0 : Vec 1) (0 : Mat 1 1) (0 : Mat 1 1) (1 : Mat 1 1)
        (some (fun _ => 0))).2.1
      = (0 : Mat 1 1) - (0 : Mat 1 1) * (0 : Mat 1 1).transpose
          * (((0 : Mat 1 1) * (0 : Mat 1 1) * (0 : Mat 1 1).transpose + 1)⁻¹
              * ((0 : Mat 1 1) * (0 : Mat 1 1)))
    ∧ (∀ L, IsCholeskyFactor L ((0 : Mat 1 1) * (0 : Mat 1 1) * (0 : Mat 1 1).transpose + 1) →
        (condition_on (fun _ => 0 : Vec 1) (0 : Mat 1 1) (0 : Mat 1 1) (1 : Mat 1 1)
            (some (fun _ => 0))).2.2
          = -(1/2) * ((L⁻¹.mulVec ((fun _ => 0) - (0 : Mat 1 1).mulVec (fun _ => 0)))
                ⬝ᵥ (L⁻¹.mulVec ((fun _ => 0) - (0 : Mat 1 1).mulVec (fun _ => 0))))
            - (1 : ℝ)/2 * Real.log (2 * Real.pi) - ∑ i, Real.log (L i i))
    ∧ (condition_on (fun _ => 0 : Vec 1) (0 : Mat 1 1) (0 : Mat 1 1) (1 : Mat 1 1)
        (some (fun _ => 0))).2.2
      = gaussLogDensity ((0 : Mat 1 1).mulVec (fun _ => 0))
          ((0 : Mat 1 1) * (0 : Mat 1 1) * (0 : Mat 1 1).transpose + 1) (fun _ => 0)) := by
  have h1 : (0 : Mat 1 1).transpose = 0 := Matrix.transpose_zero
  have h2 : (1 : Mat 1 1).transpose = 1 := Matrix.transpose_one
  have h3 : ((0 : Mat 1 1) * (0 : Mat 1 1) * (0 : Mat 1 1).transpose + 1).PosDef := by
    simpa using (Matrix.PosDef.one : (1 : Mat 1 1).PosDef)
  have h4 := C4_condition_on_update (fun _ => 0 : Vec 1) (0 : Mat 1 1) (0 : Mat 1 1)
    (1 : Mat 1 1) (fun _ => 0) h1 h2 h3
  exact ⟨⟨h1, h2, h3⟩, by simpa using h4⟩

end

noncomputable section

section BackwardChar

variable {n p : ℕ} (mu_init : Vec n) (sigma_init : Mat n n)
variable (A sigma_states : ℕ → Mat n n) (C : ℕ → Mat p n) (sigma_obs : ℕ → Mat p p)
variable (data : ℕ → Option (Vec p))

/-- The smoothed belief left at index t by the backward pass, as a downward
recursion: at indices at or beyond T-1 it is the filtered belief (never
overwritten); below that, one rts_backward_step against the already-smoothed
belief at t+1 and the saved prediction at t+1. -/
def smoothedSpec (T : ℕ) (t : ℕ) : Vec n × Mat n n :=
  if h : T - 1 ≤ t then
    ((kfFiltered mu_init sigma_init A sigma_states C sigma_obs data t).1,
     (kfFiltered mu_init sigma_init A sigma_states C sigma_obs data t).2.1)
  else
    let nxt := smoothedSpec T (t + 1)
    let f := kfFiltered mu_init sigma_init A sigma_states C sigma_obs data t
    let r := rts_backward_step (A t) (sigma_states t) f.1 f.2.1
      (kfState mu_init sigma_init A sigma_states C sigma_obs data (t + 1)).muPredict
      (kfState mu_init sigma_init A sigma_states C sigma_obs data (t + 1)).sigmaPredict
      nxt.1 nxt.2
    (r.1, r.2.1)
termination_by T - 1 - t
decreasing_by
  simp_wf
  omega

/-- The full output of the backward step executed at index t (mean,
covariance, and the gain buffer it leaves in temp_nn). -/
def rtsStepAt (T t : ℕ) : Vec n × Mat n n × Mat n n :=
  rts_backward_step (A t) (sigma_states t)
    (kfFiltered mu_init sigma_init A sigma_states C sigma_obs data t).1
    (kfFiltered mu_init sigma_init A sigma_states C sigma_obs data t).2.1
    (kfState mu_init sigma_init A sigma_states C sigma_obs data (t + 1)).muPredict
    (kfState mu_init sigma_init A sigma_states C sigma_obs data (t + 1)).sigmaPredict
    (smoothedSpec mu_init sigma_init A sigma_states C sigma_obs data T (t + 1)).1
    (smoothedSpec mu_init sigma_init A sigma_states C sigma_obs data T (t + 1)).2

/-- The value written into ExxnT[t] by the E_step backward loop. -/
def exSpec (T t : ℕ) : Mat n n :=
  set_dynamics_stats
    (rtsStepAt mu_init sigma_init A sigma_states C sigma_obs data T t).1
    (smoothedSpec mu_init sigma_init A sigma_states C sigma_obs data T (t + 1)).1
    (smoothedSpec mu_init sigma_init A sigma_states C sigma_obs data T (t + 1)).2
    (rtsStepAt mu_init sigma_init A sigma_states C sigma_obs data T t).2.2

lemma smoothedSpec_ge (T t : ℕ) (h : T - 1 ≤ t) :
    smoothedSpec mu_init sigma_init A sigma_states C sigma_obs data T t
      = ((kfFiltered mu_init sigma_init A sigma_states C sigma_obs data t).1,
         (kfFiltered mu_init sigma_init A sigma_states C sigma_obs data t).2.1) := by
  rw [smoothedSpec, dif_pos h]

lemma smoothedSpec_lt (T t : ℕ) (h : t < T - 1) :
    smoothedSpec mu_init sigma_init A sigma_states C sigma_obs data T t
      = ((rtsStepAt mu_init sigma_init A sigma_states C sigma_obs data T t).1,
         (rtsStepAt mu_init sigma_init A sigma_states C sigma_obs data T t).2.1) := by
  rw [smoothedSpec, dif_neg (not_le.mpr h)]
  rfl

/-- Invariant of the rts_smoother backward fold: indices at or beyond the
remaining-work watermark already hold the smoothed values, indices below it
still hold the filtered values; afterwards every index holds the smoothed
value. -/
lemma rtsBack_fold_char (T : ℕ) :
    ∀ m, m ≤ T - 1 →
    ∀ st : (ℕ → Vec n) × (ℕ → Mat n n),
      (∀ j, j ≤ T - 1 →
        (m ≤ j → st.1 j
            = (smoothedSpec mu_init sigma_init A sigma_states C sigma_obs data T j).1
          ∧ st.2 j
            = (smoothedSpec mu_init sigma_init A sigma_states C sigma_obs data T j).2)
        ∧ (j < m → st.1 j
            = (kfFiltered mu_init sigma_init A sigma_states C sigma_obs data j).1
          ∧ st.2 j
            = (kfFiltered mu_init sigma_init A sigma_states C sigma_obs data j).2.1)) →
      ∀ j, j ≤ T - 1 →
        ((List.range m).reverse.foldl
            (rtsBackBody A sigma_states
              (rtsFwd mu_init sigma_init A sigma_states C sigma_obs data T)) st).1 j
          = (smoothedSpec mu_init sigma_init A sigma_states C sigma_obs data T j).1
        ∧ ((List.range m).reverse.foldl
            (rtsBackBody A sigma_states
              (rtsFwd mu_init sigma_init A sigma_states C sigma_obs data T)) st).2 j
          = (smoothedSpec mu_init sigma_init A sigma_states C sigma_obs data T j).2 := by
  intro m
  induction m with
  | zero =>
    intro _ st hst j hj
    simpa using (hst j hj).1 (Nat.zero_le j)
  | succ m ih =>
    intro hm st hst j hj
    have hmT : m < T - 1 := hm
    have hfwd := (rtsFwd_spec mu_init sigma_init A sigma_states C sigma_obs data T).2.1
      (m + 1) (by omega)
    have hstm := (hst m (by omega)).2 (Nat.lt_succ_self m)
    have hstm1 := (hst (m + 1) hm).1 (le_refl (m + 1))
    have hbody : rtsBackBody A sigma_states
        (rtsFwd mu_init sigma_init A sigma_states C sigma_obs data T) st m
        = (Function.update st.1 m
            (rtsStepAt mu_init sigma_init A sigma_states C sigma_obs data T m).1,
           Function.update st.2 m
            (rtsStepAt mu_init sigma_init A sigma_states C sigma_obs data T m).2.1) := by
      rw [rtsBackBody]
      rw [hstm.1, hstm.2, hstm1.1, hstm1.2, hfwd.1, hfwd.2]
      rfl
    rw [List.range_succ, List.reverse_append, List.reverse_singleton,
      List.singleton_append, List.foldl_cons]
    refine ih (by omega) _ ?_ j hj
    intro j' hj'
    rw [hbody]
    dsimp only
    constructor
    · intro hge
      rcases Nat.eq_or_lt_of_le hge with heq | hlt2
      · subst heq
        rw [smoothedSpec_lt mu_init sigma_init A sigma_states C sigma_obs data T m hmT]
        dsimp only
        exact ⟨Function.update_same _ _ _, Function.update_same _ _ _⟩
      · have hne : j' ≠ m := by omega
        rw [Function.update_noteq hne, Function.update_noteq hne]
        exact ⟨((hst j' hj').1 (by omega)).1, ((hst j' hj').1 (by omega)).2⟩
    · intro hlt2
      have hne : j' ≠ m := by omega
      rw [Function.update_noteq hne, Function.update_noteq hne]
      exact ⟨((hst j' hj').2 (by omega)).1, ((hst j' hj').2 (by omega)).2⟩

/-- The rts_smoother output at every index is the smoothedSpec recursion. -/
lemma rts_smoother_char (T : ℕ) (hT : 0 < T) (t : Fin T) :
    (rts_smoother mu_init sigma_init A sigma_states C sigma_obs data T).2.1 t
      = (smoothedSpec mu_init sigma_init A sigma_states C sigma_obs data T t).1
    ∧ (rts_smoother mu_init sigma_init A sigma_states C sigma_obs data T).2.2 t
      = (smoothedSpec mu_init sigma_init A sigma_states C sigma_obs data T t).2 := by
  have hmain := rtsBack_fold_char mu_init sigma_init A sigma_states C sigma_obs data T
    (T - 1) le_rfl
    ((rtsFwd mu_init sigma_init A sigma_states C sigma_obs data T).smoothedMus,
     (rtsFwd mu_init sigma_init A sigma_states C sigma_obs data T).smoothedSigmas)
    ?_ t (by have := t.isLt; omega)
  · have hrb : (rtsBack mu_init sigma_init A sigma_states C sigma_obs data T) =
        (List.range (T - 1)).reverse.foldl
          (rtsBackBody A sigma_states
            (rtsFwd mu_init sigma_init A sigma_states C sigma_obs data T))
          ((rtsFwd mu_init sigma_init A sigma_states C sigma_obs data T).smoothedMus,
           (rtsFwd mu_init sigma_init A sigma_states C sigma_obs data T).smoothedSigmas) := rfl
    constructor
    · show (rtsBack mu_init sigma_init A sigma_states C sigma_obs data T).1 t = _
      rw [hrb]
      exact hmain.1
    · show (rtsBack mu_init sigma_init A sigma_states C sigma_obs data T).2 t = _
      rw [hrb]
      exact hmain.2
  · intro j hj
    have hfw := (rtsFwd_spec mu_init sigma_init A sigma_states C sigma_obs data T).2.2
      j (by omega)
    constructor
    · intro hge
      have hje : j = T - 1 := le_antisymm hj hge
      rw [smoothedSpec_ge mu_init sigma_init A sigma_states C sigma_obs data T j (hje ▸ le_rfl)]
      exact ⟨hfw.1, hfw.2⟩
    · intro _
      exact ⟨hfw.1, hfw.2⟩

end BackwardChar

end

noncomputable section

section BackwardCharE

variable {n p : ℕ} (mu_init : Vec n) (sigma_init : Mat n n)
variable (A sigma_states : ℕ → Mat n n) (C : ℕ → Mat p n) (sigma_obs : ℕ → Mat p p)
variable (data : ℕ → Option (Vec p))

/-- Invariant of the E_step backward fold: the smoothed components behave as
in the rts_smoother fold, and the ExxnT cells at processed indices hold the
exSpec values. -/
lemma esBack_fold_char (T : ℕ) :
    ∀ m, m ≤ T - 1 →
    ∀ st : (ℕ → Vec n) × (ℕ → Mat n n) × (ℕ → Mat n n),
      (∀ j, j ≤ T - 1 →
        (m ≤ j → st.1 j
            = (smoothedSpec mu_init sigma_init A sigma_states C sigma_obs data T j).1
          ∧ st.2.1 j
            = (smoothedSpec mu_init sigma_init A sigma_states C sigma_obs data T j).2)
        ∧ (j < m → st.1 j
            = (kfFiltered mu_init sigma_init A sigma_states C sigma_obs data j).1
          ∧ st.2.1 j
            = (kfFiltered mu_init sigma_init A sigma_states C sigma_obs data j).2.1)) →
      (∀ j, m ≤ j → j < T - 1 → st.2.2 j
          = exSpec mu_init sigma_init A sigma_states C sigma_obs data T j) →
      (∀ j, j ≤ T - 1 →
        ((List.range m).reverse.foldl
            (esBackBody A sigma_states
              (esFwd mu_init sigma_init A sigma_states C sigma_obs data T)) st).1 j
          = (smoothedSpec mu_init sigma_init A sigma_states C sigma_obs data T j).1
        ∧ ((List.range m).reverse.foldl
            (esBackBody A sigma_states
              (esFwd mu_init sigma_init A sigma_states C sigma_obs data T)) st).2.1 j
          = (smoothedSpec mu_init sigma_init A sigma_states C sigma_obs data T j).2)
      ∧ (∀ j, j < T - 1 →
        ((List.range m).reverse.foldl
            (esBackBody A sigma_states
              (esFwd mu_init sigma_init A sigma_states C sigma_obs data T)) st).2.2 j
          = exSpec mu_init sigma_init A sigma_states C sigma_obs data T j) := by
  intro m
  induction m with
  | zero =>
    intro _ st hst hex
    constructor
    · intro j hj
      simpa using (hst j hj).1 (Nat.zero_le j)
    · intro j hj
      simpa using hex j (Nat.zero_le j) hj
  | succ m ih =>
    intro hm st hst hex
    have hmT : m < T - 1 := hm
    have hfwd : (esFwd mu_init sigma_init A sigma_states C sigma_obs data T).muPredicts (m + 1)
          = (kfState mu_init sigma_init A sigma_states C sigma_obs data (m + 1)).muPredict
        ∧ (esFwd mu_init sigma_init A sigma_states C sigma_obs data T).sigmaPredicts (m + 1)
          = (kfState mu_init sigma_init A sigma_states C sigma_obs data (m + 1)).sigmaPredict := by
      rw [esFwd_eq_rtsFwd]
      exact (rtsFwd_spec mu_init sigma_init A sigma_states C sigma_obs data T).2.1
        (m + 1) (by omega)
    have hstm := (hst m (by omega)).2 (Nat.lt_succ_self m)
    have hstm1 := (hst (m + 1) hm).1 (le_refl (m + 1))
    have hexm : set_dynamics_stats
          (rtsStepAt mu_init sigma_init A sigma_states C sigma_obs data T m).1
          (smoothedSpec mu_init sigma_init A sigma_states C sigma_obs data T (m + 1)).1
          (smoothedSpec mu_init sigma_init A sigma_states C sigma_obs data T (m + 1)).2
          (rtsStepAt mu_init sigma_init A sigma_states C sigma_obs data T m).2.2
        = exSpec mu_init sigma_init A sigma_states C sigma_obs data T m := rfl
    have hbody : esBackBody A sigma_states
        (esFwd mu_init sigma_init A sigma_states C sigma_obs data T) st m
        = (Function.update st.1 m
            (rtsStepAt mu_init sigma_init A sigma_states C sigma_obs data T m).1,
           Function.update st.2.1 m
            (rtsStepAt mu_init sigma_init A sigma_states C sigma_obs data T m).2.1,
           Function.update st.2.2 m
            (exSpec mu_init sigma_init A sigma_states C sigma_obs data T m)) := by
      rw [esBackBody]
      rw [hstm.1, hstm.2, hstm1.1, hstm1.2, hfwd.1, hfwd.2, ← hexm]
      rfl
    rw [List.range_succ, List.reverse_append, List.reverse_singleton,
      List.singleton_append, List.foldl_cons]
    refine ih (by omega) _ ?_ ?_
    · intro j' hj'
      rw [hbody]
      dsimp only
      constructor
      · intro hge
        rcases Nat.eq_or_lt_of_le hge with heq | hlt2
        · subst heq
          rw [smoothedSpec_lt mu_init sigma_init A sigma_states C sigma_obs data T m hmT]
          dsimp only
          exact ⟨Function.update_same _ _ _, Function.update_same _ _ _⟩
        · have hne : j' ≠ m := by omega
          rw [Function.update_noteq hne, Function.update_noteq hne]
          exact ⟨((hst j' hj').1 (by omega)).1, ((hst j' hj').1 (by omega)).2⟩
      · intro hlt2
        have hne : j' ≠ m := by omega
        rw [Function.update_noteq hne, Function.update_noteq hne]
        exact ⟨((hst j' hj').2 (by omega)).1, ((hst j' hj').2 (by omega)).2⟩
    · intro j' hge hj'
      rw [hbody]
      dsimp only
      rcases Nat.eq_or_lt_of_le hge with heq | hlt2
      · subst heq
        exact Function.update_same _ _ _
      · have hne : j' ≠ m := by omega
        rw [Function.update_noteq hne]
        exact hex j' (by omega) hj'

/-- Initial-state invariant of the E_step backward fold, shared below. -/
lemma esBack_char (T : ℕ) (hT : 0 < T) :
    (∀ j, j ≤ T - 1 →
      (esBack mu_init sigma_init A sigma_states C sigma_obs data T).1 j
        = (smoothedSpec mu_init sigma_init A sigma_states C sigma_obs data T j).1
      ∧ (esBack mu_init sigma_init A sigma_states C sigma_obs data T).2.1 j
        = (smoothedSpec mu_init sigma_init A sigma_states C sigma_obs data T j).2)
    ∧ (∀ j, j < T - 1 →
      (esBack mu_init sigma_init A sigma_states C sigma_obs data T).2.2 j
        = exSpec mu_init sigma_init A sigma_states C sigma_obs data T j) := by
  have hmain := esBack_fold_char mu_init sigma_init A sigma_states C sigma_obs data T
    (T - 1) le_rfl
    ((esFwd mu_init sigma_init A sigma_states C sigma_obs data T).smoothedMus,
     (esFwd mu_init sigma_init A sigma_states C sigma_obs data T).smoothedSigmas,
     fun _ => 0)
    ?_ ?_
  · exact hmain
  · intro j hj
    have hfw : (esFwd mu_init sigma_init A sigma_states C sigma_obs data T).smoothedMus j
          = (kfFiltered mu_init sigma_init A sigma_states C sigma_obs data j).1
        ∧ (esFwd mu_init sigma_init A sigma_states C sigma_obs data T).smoothedSigmas j
          = (kfFiltered mu_init sigma_init A sigma_states C sigma_obs data j).2.1 := by
      rw [esFwd_eq_rtsFwd]
      exact (rtsFwd_spec mu_init sigma_init A sigma_states C sigma_obs data T).2.2 j (by omega)
    constructor
    · intro hge
      have hje : j = T - 1 := le_antisymm hj hge
      rw [smoothedSpec_ge mu_init sigma_init A sigma_states C sigma_obs data T j (hje ▸ le_rfl)]
      exact ⟨hfw.1, hfw.2⟩
    · intro _
      exact ⟨hfw.1, hfw.2⟩
  · intro j hge hj
    exact absurd (lt_of_le_of_lt hge hj) (lt_irrefl _)

/-- The ExxnT sequence returned by E_step is the exSpec recursion. -/
lemma E_step_ExxnT_char (T : ℕ) (hT : 0 < T) (t : Fin (T - 1)) :
    (E_step mu_init sigma_init A sigma_states C sigma_obs data T).2.2.2 t
      = exSpec mu_init sigma_init A sigma_states C sigma_obs data T t :=
  (esBack_char mu_init sigma_init A sigma_states C sigma_obs data T hT).2 t t.isLt

/-- The smoothed sequences returned by E_step are the smoothedSpec
recursion. -/
lemma E_step_smoothed_char (T : ℕ) (hT : 0 < T) (t : Fin T) :
    (E_step mu_init sigma_init A sigma_states C sigma_obs data T).2.1 t
      = (smoothedSpec mu_init sigma_init A sigma_states C sigma_obs data T t).1
    ∧ (E_step mu_init sigma_init A sigma_states C sigma_obs data T).2.2.1 t
      = (smoothedSpec mu_init sigma_init A sigma_states C sigma_obs data T t).2 :=
  (esBack_char mu_init sigma_init A sigma_states C sigma_obs data T hT).1 t
    (by have := t.isLt; omega)

end BackwardCharE

end

noncomputable section

/-- Evaluation of rts_backward_step when the predicted covariance is
symmetric positive definite: the factorization succeeds and the dpotrs
solve produces Gt = sigma_p⁻¹ A sigma_fᵀ (the transposed smoothing gain),
giving the standard RTS update. -/
lemma rts_backward_step_eval {n : ℕ} (A sigma_states : Mat n n) (mu_f : Vec n)
    (sigma_f : Mat n n) (mu_p : Vec n) (sigma_p : Mat n n)
    (mu_s : Vec n) (sigma_s : Mat n n)
    (hp : sigma_p.transpose = sigma_p) (hpd : sigma_p.PosDef) :
    rts_backward_step A sigma_states mu_f sigma_f mu_p sigma_p mu_s sigma_s
      = (mu_f - (sigma_p⁻¹ * (A * sigma_f.transpose)).transpose.mulVec (mu_p - mu_s),
         sigma_f - (sigma_p⁻¹ * (A * sigma_f.transpose)).transpose
           * (sigma_p - sigma_s) * (sigma_p⁻¹ * (A * sigma_f.transpose)),
         sigma_p⁻¹ * (A * sigma_f.transpose)) := by
  obtain ⟨L, hL, hdp, htril, hdiag⟩ := dpotrf_posDef hp hpd
  simp only [rts_backward_step, dpotrs, hp, htril]
  rw [show (L.transpose)⁻¹ * (L⁻¹ * (A * sigma_f.transpose))
      = sigma_p⁻¹ * (A * sigma_f.transpose) from by rw [← Matrix.mul_assoc, hL.inv_fac]]

/-- The conditioned covariance is symmetric whenever the prior covariance
is (sigma_cond = sigma_x - Vᵀ V on the normal branch). -/
lemma condition_on_sigma_symm {n p : ℕ} (mu_x : Vec n) (sigma_x : Mat n n)
    (C : Mat p n) (sigma_obs : Mat p p) (y : Option (Vec p))
    (hsx : sigma_x.transpose = sigma_x) :
    ((condition_on mu_x sigma_x C sigma_obs y).2.1).transpose
      = (condition_on mu_x sigma_x C sigma_obs y).2.1 := by
  cases y with
  | none => exact hsx
  | some yv =>
    simp only [condition_on]
    rw [Matrix.transpose_sub, hsx, Matrix.transpose_mul, Matrix.transpose_transpose]

/-- The predicted covariance is symmetric whenever the input covariance and
the process noise are (sigma_predict = sigma_states + A sigma Aᵀ). -/
lemma predict_sigma_symm {n : ℕ} (mu : Vec n) (sigma : Mat n n)
    (A sigma_states : Mat n n) (hs : sigma.transpose = sigma)
    (hq : sigma_states.transpose = sigma_states) :
    ((predict mu sigma A sigma_states).2).transpose
      = (predict mu sigma A sigma_states).2 := by
  simp only [predict]
  rw [Matrix.transpose_add, hq, Matrix.transpose_mul, Matrix.transpose_mul,
    Matrix.transpose_transpose, hs, Matrix.mul_assoc]

/-- Symmetry propagates through the forward pass: all predicted and filtered
covariances are symmetric when the initial covariance and every process
noise matrix are. -/
lemma kf_sigma_symm {n p : ℕ} (mu_init : Vec n) (sigma_init : Mat n n)
    (A sigma_states : ℕ → Mat n n) (C : ℕ → Mat p n) (sigma_obs : ℕ → Mat p p)
    (data : ℕ → Option (Vec p))
    (hsx0 : sigma_init.transpose = sigma_init)
    (hQ : ∀ t, (sigma_states t).transpose = sigma_states t) (t : ℕ) :
    ((kfState mu_init sigma_init A sigma_states C sigma_obs data t).sigmaPredict).transpose
      = (kfState mu_init sigma_init A sigma_states C sigma_obs data t).sigmaPredict
    ∧ ((kfFiltered mu_init sigma_init A sigma_states C sigma_obs data t).2.1).transpose
      = (kfFiltered mu_init sigma_init A sigma_states C sigma_obs data t).2.1 := by
  induction t with
  | zero =>
    refine ⟨hsx0, ?_⟩
    exact condition_on_sigma_symm _ _ _ _ _ hsx0
  | succ t ih =>
    have ih2 := ih.2
    rw [kfFiltered] at ih2
    have hstep : ((kfState mu_init sigma_init A sigma_states C sigma_obs data
        (t + 1)).sigmaPredict).transpose
        = (kfState mu_init sigma_init A sigma_states C sigma_obs data (t + 1)).sigmaPredict := by
      simp only [kfState]
      exact predict_sigma_symm _ _ _ _ ih2 (hQ t)
    refine ⟨hstep, ?_⟩
    simp only [kfFiltered]
    exact condition_on_sigma_symm _ _ _ _ _ hstep

section GainSection

variable {n p : ℕ} (mu_init : Vec n) (sigma_init : Mat n n)
variable (A sigma_states : ℕ → Mat n n) (C : ℕ → Mat p n) (sigma_obs : ℕ → Mat p p)
variable (data : ℕ → Option (Vec p))

/-- Modelled from the spec (section 4.4): the RTS smoothing gain at time t,
recomputed independently from the forward quantities:
G_t = Sigma_filtered,t A_tᵀ (Sigma_predict,t+1)⁻¹. -/
def smoothingGain (t : ℕ) : Mat n n :=
  (kfFiltered mu_init sigma_init A sigma_states C sigma_obs data t).2.1
    * (A t).transpose
    * ((kfState mu_init sigma_init A sigma_states C sigma_obs data (t + 1)).sigmaPredict)⁻¹

lemma smoothingGain_transpose (t : ℕ)
    (hp : ((kfState mu_init sigma_init A sigma_states C sigma_obs data
        (t + 1)).sigmaPredict).transpose
      = (kfState mu_init sigma_init A sigma_states C sigma_obs data (t + 1)).sigmaPredict) :
    (smoothingGain mu_init sigma_init A sigma_states C sigma_obs data t).transpose
      = ((kfState mu_init sigma_init A sigma_states C sigma_obs data (t + 1)).sigmaPredict)⁻¹
        * (A t * ((kfFiltered mu_init sigma_init A sigma_states C sigma_obs data
            t).2.1).transpose) := by
  rw [smoothingGain, Matrix.transpose_mul, Matrix.transpose_mul,
    Matrix.transpose_nonsing_inv, hp, Matrix.transpose_transpose]

end GainSection

end

noncomputable section

/-- C7 amended: E_step returns exactly T-1 second-moment matrices, and for
each t the returned matrix equals
Sigma_smoothed,t+1 * G_tᵀ + mu_smoothed,t+1 mu_smoothed,tᵀ -- the transpose
of the expression the claim states -- where G_t is the RTS smoothing gain
recomputed independently (spec 4.4) and mu_smoothed / Sigma_smoothed are the
returned smoothed sequences. -/
theorem C7_amended_second_moments {n p : ℕ} (T : ℕ) (hT : 0 < T)
    (mu_init : Vec n) (sigma_init : Mat n n) (A sigma_states : ℕ → Mat n n)
    (C : ℕ → Mat p n) (sigma_obs : ℕ → Mat p p) (data : ℕ → Option (Vec p))
    (hsx0 : sigma_init.transpose = sigma_init)
    (hQ : ∀ t, (sigma_states t).transpose = sigma_states t)
    (hpd : ∀ t, t < T - 1 →
      ((kfState mu_init sigma_init A sigma_states C sigma_obs data
        (t + 1)).sigmaPredict).PosDef) :
    ∀ t : Fin (T - 1),
      (E_step mu_init sigma_init A sigma_states C sigma_obs data T).2.2.2 t
        = (E_step mu_init sigma_init A sigma_states C sigma_obs data T).2.2.1
              ⟨(t : ℕ) + 1, by have := t.isLt; omega⟩
            * (smoothingGain mu_init sigma_init A sigma_states C sigma_obs data t).transpose
          + Matrix.vecMulVec
              ((E_step mu_init sigma_init A sigma_states C sigma_obs data T).2.1
                ⟨(t : ℕ) + 1, by have := t.isLt; omega⟩)
              ((E_step mu_init sigma_init A sigma_states C sigma_obs data T).2.1
                ⟨(t : ℕ), by have := t.isLt; omega⟩) := by
  intro t
  have htlt : (t : ℕ) < T - 1 := t.isLt
  have hsymm := (kf_sigma_symm mu_init sigma_init A sigma_states C sigma_obs data
    hsx0 hQ ((t : ℕ) + 1)).1
  have heval := rts_backward_step_eval (A t) (sigma_states t)
    (kfFiltered mu_init sigma_init A sigma_states C sigma_obs data t).1
    (kfFiltered mu_init sigma_init A sigma_states C sigma_obs data t).2.1
    (kfState mu_init sigma_init A sigma_states C sigma_obs data ((t : ℕ) + 1)).muPredict
    (kfState mu_init sigma_init A sigma_states C sigma_obs data ((t : ℕ) + 1)).sigmaPredict
    (smoothedSpec mu_init sigma_init A sigma_states C sigma_obs data T ((t : ℕ) + 1)).1
    (smoothedSpec mu_init sigma_init A sigma_states C sigma_obs data T ((t : ℕ) + 1)).2
    hsymm (hpd t htlt)
  have hstep : rtsStepAt mu_init sigma_init A sigma_states C sigma_obs data T t
      = ((kfFiltered mu_init sigma_init A sigma_states C sigma_obs data t).1
          - (((kfState mu_init sigma_init A sigma_states C sigma_obs data
                ((t : ℕ) + 1)).sigmaPredict)⁻¹
              * (A t * ((kfFiltered mu_init sigma_init A sigma_states C sigma_obs data
                t).2.1).transpose)).transpose.mulVec
            ((kfState mu_init sigma_init A sigma_states C sigma_obs data
                ((t : ℕ) + 1)).muPredict
              - (smoothedSpec mu_init sigma_init A sigma_states C sigma_obs data T
                ((t : ℕ) + 1)).1),
         (kfFiltered mu_init sigma_init A sigma_states C sigma_obs data t).2.1
          - (((kfState mu_init sigma_init A sigma_states C sigma_obs data
                ((t : ℕ) + 1)).sigmaPredict)⁻¹
              * (A t * ((kfFiltered mu_init sigma_init A sigma_states C sigma_obs data
                t).2.1).transpose)).transpose
            * ((kfState mu_init sigma_init A sigma_states C sigma_obs data
                ((t : ℕ) + 1)).sigmaPredict
              - (smoothedSpec mu_init sigma_init A sigma_states C sigma_obs data T
                ((t : ℕ) + 1)).2)
            * (((kfState mu_init sigma_init A sigma_states C sigma_obs data
                ((t : ℕ) + 1)).sigmaPredict)⁻¹
              * (A t * ((kfFiltered mu_init sigma_init A sigma_states C sigma_obs data
                t).2.1).transpose)),
         ((kfState mu_init sigma_init A sigma_states C sigma_obs data
             ((t : ℕ) + 1)).sigmaPredict)⁻¹
          * (A t * ((kfFiltered mu_init sigma_init A sigma_states C sigma_obs data
              t).2.1).transpose)) := by
    rw [rtsStepAt]
    exact heval
  have hgain := smoothingGain_transpose mu_init sigma_init A sigma_states C sigma_obs data
    t hsymm
  have hsm1 := E_step_smoothed_char mu_init sigma_init A sigma_states C sigma_obs data T hT
    ⟨(t : ℕ) + 1, by omega⟩
  have hsm0 := E_step_smoothed_char mu_init sigma_init A sigma_states C sigma_obs data T hT
    ⟨(t : ℕ), by omega⟩
  rw [E_step_ExxnT_char mu_init sigma_init A sigma_states C sigma_obs data T hT t]
  rw [exSpec, set_dynamics_stats]
  rw [hsm1.1, hsm1.2, hsm0.1, hgain, hstep]
  dsimp only
  rw [smoothedSpec_lt mu_init sigma_init A sigma_states C sigma_obs data T t htlt, rtsStepAt,
    heval]

end

noncomputable section

/-- A matrix with a Cholesky factorization is positive definite. -/
lemma isCholeskyFactor_posDef {n : ℕ} {L S : Mat n n}
    (h : IsCholeskyFactor L S) : S.PosDef := by
  have hdet : IsUnit L.transpose.det := by
    rw [Matrix.det_transpose]
    exact h.isUnitDet
  rw [← h.2.2]
  constructor
  · show (L * L.transpose).conjTranspose = L * L.transpose
    rw [Matrix.conjTranspose_eq_transpose_of_trivial, Matrix.transpose_mul,
      Matrix.transpose_transpose]
  · intro x hx
    have hstar : star x = x := by
      funext j
      simp
    have hrw : star x ⬝ᵥ ((L * L.transpose) *ᵥ x)
        = (L.transpose *ᵥ x) ⬝ᵥ (L.transpose *ᵥ x) := by
      rw [hstar, ← Matrix.mulVec_mulVec, Matrix.dotProduct_mulVec,
        ← Matrix.mulVec_transpose]
    rw [hrw]
    have hne : L.transpose *ᵥ x ≠ 0 := by
      intro h0
      have hinj : Function.Injective (L.transpose).mulVec :=
        Matrix.mulVec_injective_iff_isUnit.mpr ((Matrix.isUnit_iff_isUnit_det _).mpr hdet)
      have : x = 0 := by
        apply hinj
        rw [h0, Matrix.mulVec_zero]
      exact hx this
    have := Matrix.dotProduct_star_self_pos_iff
      (v := L.transpose *ᵥ x) |>.mpr hne
    have hstar2 : star (L.transpose *ᵥ x) = L.transpose *ᵥ x := by
      funext j
      simp
    rwa [hstar2] at this

theorem C7_amended_witness :
    ((0 : ℕ) < 2 ∧ (1 : Mat 1 1).transpose = 1
      ∧ (∀ t : ℕ, ((fun _ => (1 : Mat 1 1)) t).transpose = (fun _ => (1 : Mat 1 1)) t)
      ∧ (∀ t, t < 2 - 1 →
          ((kfState (fun _ => 0 : Vec 1) (1 : Mat 1 1) (fun _ => 1) (fun _ => 1)
            (fun _ => (1 : Mat 1 1)) (fun _ => 1) (fun _ => none)
            (t + 1)).sigmaPredict).PosDef)) ∧
    (∀ t : Fin (2 - 1),
      (E_step (fun _ => 0 : Vec 1) (1 : Mat 1 1) (fun _ => 1) (fun _ => 1)
          (fun _ => (1 : Mat 1 1)) (fun _ => 1) (fun _ => none) 2).2.2.2 t
        = (E_step (fun _ => 0 : Vec 1) (1 : Mat 1 1) (fun _ => 1) (fun _ => 1)
              (fun _ => (1 : Mat 1 1)) (fun _ => 1) (fun _ => none) 2).2.2.1
              ⟨(t : ℕ) + 1, by have := t.isLt; omega⟩
            * (smoothingGain (fun _ => 0 : Vec 1) (1 : Mat 1 1) (fun _ => 1) (fun _ => 1)
                (fun _ => (1 : Mat 1 1)) (fun _ => 1) (fun _ => none) t).transpose
          + Matrix.vecMulVec
              ((E_step (fun _ => 0 : Vec 1) (1 : Mat 1 1) (fun _ => 1) (fun _ => 1)
                  (fun _ => (1 : Mat 1 1)) (fun _ => 1) (fun _ => none) 2).2.1
                ⟨(t : ℕ) + 1, by have := t.isLt; omega⟩)
              ((E_step (fun _ => 0 : Vec 1) (1 : Mat 1 1) (fun _ => 1) (fun _ => 1)
                  (fun _ => (1 : Mat 1 1)) (fun _ => 1) (fun _ => none) 2).2.1
                ⟨(t : ℕ), by have := t.isLt; omega⟩)) := by
  have hpd : ∀ t, t < 2 - 1 →
      ((kfState (fun _ => 0 : Vec 1) (1 : Mat 1 1) (fun _ => 1) (fun _ => 1)
        (fun _ => (1 : Mat 1 1)) (fun _ => 1) (fun _ => none)
        (t + 1)).sigmaPredict).PosDef := by
    intro t ht
    have ht0 : t = 0 := by omega
    subst ht0
    have hval : (kfState (fun _ => 0 : Vec 1) (1 : Mat 1 1) (fun _ => 1) (fun _ => 1)
        (fun _ => (1 : Mat 1 1)) (fun _ => 1) (fun _ => none) 1).sigmaPredict
        = (1 : Mat 1 1) + 1 := by
      simp [kfState, condition_on, predict]
    rw [hval]
    exact Matrix.PosDef.add Matrix.PosDef.one Matrix.PosDef.one
  exact ⟨⟨Nat.two_pos, Matrix.transpose_one, fun _ => Matrix.transpose_one, hpd⟩,
    C7_amended_second_moments 2 Nat.two_pos (fun _ => 0) 1 (fun _ => 1) (fun _ => 1)
      (fun _ => 1) (fun _ => 1) (fun _ => none) Matrix.transpose_one
      (fun _ => Matrix.transpose_one) hpd⟩

end

noncomputable section

/-- Concrete two-state instance for exercising the E_step second-moment
formula: dynamics matrix of the counterexample. -/
def ceA : Mat 2 2 := !![1, 0; 1, 1]

/-- Process noise of the counterexample. -/
def ceQ : Mat 2 2 := !![3, 1; 1, 3]

/-- The one-step predicted covariance Q + A Aᵀ of the counterexample. -/
def ceSp : Mat 2 2 := !![4, 2; 2, 5]

/-- A Cholesky factor of ceSp. -/
def ceL : Mat 2 2 := !![2, 0; 1, 2]

/-- The inverse of ceSp. -/
def ceSpInv : Mat 2 2 := !![5/16, -1/8; -1/8, 1/4]

/-- Initial mean of the counterexample. -/
def ceMu : Vec 2 := ![1, 0]

/-- Constant observation matrix sequence (zero) of the counterexample. -/
def ceCs : ℕ → Mat 1 2 := fun _ => 0

/-- Constant observation noise sequence (zero) of the counterexample. -/
def ceRs : ℕ → Mat 1 1 := fun _ => 0

/-- Data sequence of the counterexample: every observation missing. -/
def ceDs : ℕ → Option (Vec 1) := fun _ => none

/-- Constant dynamics sequence of the counterexample. -/
def ceAs : ℕ → Mat 2 2 := fun _ => ceA

/-- Constant process noise sequence of the counterexample. -/
def ceQs : ℕ → Mat 2 2 := fun _ => ceQ

lemma ceLT : ceL.transpose = !![2, 1; 0, 2] := by
  ext i j
  fin_cases i <;> fin_cases j <;> simp [ceL, Matrix.transpose_apply]

lemma ceAT : ceA.transpose = !![1, 1; 0, 1] := by
  ext i j
  fin_cases i <;> fin_cases j <;> simp [ceA, Matrix.transpose_apply]

lemma ceChol : IsCholeskyFactor ceL ceSp := by
  refine ⟨?_, ?_, ?_⟩
  · intro i j hij
    fin_cases i <;> fin_cases j <;>
      first
        | exact absurd hij (by decide)
        | simp [ceL]
  · intro i
    fin_cases i <;> norm_num [ceL]
  · rw [ceLT]
    ext i j
    fin_cases i <;> fin_cases j <;>
      norm_num [ceL, ceSp, Matrix.mul_apply, Fin.sum_univ_succ]

lemma ceSp_symm : ceSp.transpose = ceSp := by
  ext i j
  fin_cases i <;> fin_cases j <;> simp [ceSp]

lemma ceSp_posDef : ceSp.PosDef := isCholeskyFactor_posDef ceChol

lemma ceSp_inv : ceSp⁻¹ = ceSpInv := by
  apply Matrix.inv_eq_right_inv
  ext i j
  fin_cases i <;> fin_cases j <;>
    norm_num [ceSp, ceSpInv, Matrix.mul_apply, Fin.sum_univ_succ, Matrix.one_apply]

lemma ceCond (mu : Vec 2) (sig : Mat 2 2) (t : ℕ) :
    condition_on mu sig (ceCs t) (ceRs t) (ceDs t) = (mu, sig, 0) := rfl

lemma ceState0_mu :
    (kfState ceMu 1 ceAs ceQs ceCs ceRs ceDs 0).muPredict = ceMu := rfl

lemma ceState0_sigma :
    (kfState ceMu 1 ceAs ceQs ceCs ceRs ceDs 0).sigmaPredict = 1 := rfl

lemma ceState1_mu :
    (kfState ceMu 1 ceAs ceQs ceCs ceRs ceDs 1).muPredict = ![1, 1] := by
  simp only [kfState, ceCond, predict]
  funext i
  fin_cases i <;>
    norm_num [ceAs, ceA, ceMu, Matrix.mulVec, Matrix.dotProduct, Fin.sum_univ_succ]

lemma ceState1_sigma :
    (kfState ceMu 1 ceAs ceQs ceCs ceRs ceDs 1).sigmaPredict = ceSp := by
  simp only [kfState, ceCond, predict]
  dsimp only [ceAs, ceQs]
  rw [Matrix.mul_one, ceAT]
  ext i j
  fin_cases i <;> fin_cases j <;>
    norm_num [ceA, ceQ, ceSp, Matrix.mul_apply, Matrix.add_apply,
      Fin.sum_univ_succ]

lemma ceFilt (t : ℕ) :
    kfFiltered ceMu 1 ceAs ceQs ceCs ceRs ceDs t
      = ((kfState ceMu 1 ceAs ceQs ceCs ceRs ceDs t).muPredict,
         (kfState ceMu 1 ceAs ceQs ceCs ceRs ceDs t).sigmaPredict, 0) := by
  rw [kfFiltered]
  exact ceCond _ _ t

lemma ceSm1 :
    smoothedSpec ceMu 1 ceAs ceQs ceCs ceRs ceDs 2 1 = (![1, 1], ceSp) := by
  rw [smoothedSpec_ge ceMu 1 ceAs ceQs ceCs ceRs ceDs 2 1 (by omega), ceFilt]
  dsimp only
  rw [ceState1_mu, ceState1_sigma]

lemma ceStep0 :
    rtsStepAt ceMu 1 ceAs ceQs ceCs ceRs ceDs 2 0
      = (ceMu, 1, ceSp⁻¹ * ceA) := by
  rw [rtsStepAt, ceFilt, ceSm1]
  dsimp only
  simp only [Nat.zero_add]
  rw [ceState0_mu, ceState0_sigma, ceState1_mu, ceState1_sigma]
  dsimp only [ceAs, ceQs]
  rw [rts_backward_step_eval ceA ceQ ceMu 1 ![1, 1] ceSp ![1, 1] ceSp ceSp_symm
    ceSp_posDef]
  simp only [Matrix.transpose_one, mul_one, sub_self, Matrix.mulVec_zero, sub_zero,
    Matrix.mul_zero, Matrix.zero_mul]

lemma ceSm0 :
    smoothedSpec ceMu 1 ceAs ceQs ceCs ceRs ceDs 2 0 = (ceMu, 1) := by
  rw [smoothedSpec_lt ceMu 1 ceAs ceQs ceCs ceRs ceDs 2 0 (by omega), ceStep0]

lemma ceSp_detUnit : IsUnit ceSp.det := by
  have hdet : ceSp.det = 16 := by
    norm_num [ceSp, Matrix.det_fin_two]
  rw [hdet]
  exact isUnit_iff_ne_zero.mpr (by norm_num)

lemma ceEx0 :
    exSpec ceMu 1 ceAs ceQs ceCs ceRs ceDs 2 0
      = ceA + Matrix.vecMulVec ![1, 1] ceMu := by
  rw [exSpec, ceStep0, ceSm1, set_dynamics_stats]
  dsimp only
  rw [← Matrix.mul_assoc, Matrix.mul_nonsing_inv _ ceSp_detUnit, Matrix.one_mul]

lemma ceLHSval : ceA + Matrix.vecMulVec ![1, 1] ceMu = !![2, 0; 2, 1] := by
  ext i j
  fin_cases i <;> fin_cases j <;>
    norm_num [ceA, ceMu, Matrix.vecMulVec_apply, Matrix.add_apply]

lemma ceGainT :
    (smoothingGain ceMu 1 ceAs ceQs ceCs ceRs ceDs 0).transpose = ceSp⁻¹ * ceA := by
  rw [smoothingGain, ceFilt]
  dsimp only
  simp only [Nat.zero_add]
  rw [ceState0_sigma, ceState1_sigma]
  dsimp only [ceAs]
  rw [Matrix.one_mul, Matrix.transpose_mul, Matrix.transpose_transpose,
    Matrix.transpose_nonsing_inv, ceSp_symm]

lemma ceRHSval :
    ceSp⁻¹ * ceA * ceSp + Matrix.vecMulVec ceMu ![1, 1]
      = !![3/2, 3/4; 1, 3/2] := by
  rw [ceSp_inv]
  ext i j
  fin_cases i <;> fin_cases j <;>
    norm_num [ceSpInv, ceA, ceSp, ceMu, Matrix.mul_apply, Matrix.add_apply,
      Matrix.vecMulVec_apply, Fin.sum_univ_succ]

/-- C7 counterexample: a concrete two-state input with every observation
missing on which the second-moment matrix returned by E_step at t = 0 is NOT
G_0ᵀ Sigma_smoothed,1 + mu_smoothed,0 mu_smoothed,1ᵀ (with G_0 the RTS
smoothing gain recomputed from the forward quantities): the code returns
Sigma_smoothed,1 G_0ᵀ + mu_smoothed,1 mu_smoothed,0ᵀ, the transpose of the
claimed expression, and for this non-symmetric instance the two differ
(entry (0,0) is 2 versus 3/2). -/
theorem C7_counterexample :
    (E_step ceMu 1 ceAs ceQs ceCs ceRs ceDs 2).2.2.2 ⟨0, by omega⟩
      ≠ (smoothingGain ceMu 1 ceAs ceQs ceCs ceRs ceDs 0).transpose
          * (E_step ceMu 1 ceAs ceQs ceCs ceRs ceDs 2).2.2.1 ⟨1, by omega⟩
        + Matrix.vecMulVec
            ((E_step ceMu 1 ceAs ceQs ceCs ceRs ceDs 2).2.1 ⟨0, by omega⟩)
            ((E_step ceMu 1 ceAs ceQs ceCs ceRs ceDs 2).2.1 ⟨1, by omega⟩) := by
  have hL : (E_step ceMu 1 ceAs ceQs ceCs ceRs ceDs 2).2.2.2 ⟨0, by omega⟩
      = !![2, 0; 2, 1] := by
    rw [E_step_ExxnT_char ceMu 1 ceAs ceQs ceCs ceRs ceDs 2 (by omega) ⟨0, by omega⟩]
    have hc : ((⟨0, by omega⟩ : Fin (2 - 1)) : ℕ) = 0 := rfl
    rw [hc, ceEx0, ceLHSval]
  have hs1 := E_step_smoothed_char ceMu 1 ceAs ceQs ceCs ceRs ceDs 2 (by omega)
    ⟨1, by omega⟩
  have hs0 := E_step_smoothed_char ceMu 1 ceAs ceQs ceCs ceRs ceDs 2 (by omega)
    ⟨0, by omega⟩
  have hc1 : ((⟨1, by omega⟩ : Fin 2) : ℕ) = 1 := rfl
  have hc0 : ((⟨0, by omega⟩ : Fin 2) : ℕ) = 0 := rfl
  rw [hc1] at hs1
  rw [hc0] at hs0
  have hR : (smoothingGain ceMu 1 ceAs ceQs ceCs ceRs ceDs 0).transpose
        * (E_step ceMu 1 ceAs ceQs ceCs ceRs ceDs 2).2.2.1 ⟨1, by omega⟩
      + Matrix.vecMulVec
          ((E_step ceMu 1 ceAs ceQs ceCs ceRs ceDs 2).2.1 ⟨0, by omega⟩)
          ((E_step ceMu 1 ceAs ceQs ceCs ceRs ceDs 2).2.1 ⟨1, by omega⟩)
      = !![3/2, 3/4; 1, 3/2] := by
    rw [hs1.2, hs0.1, hs1.1, ceSm1, ceSm0, ceGainT]
    dsimp only
    exact ceRHSval
  intro h
  rw [hL, hR] at h
  have h00 := congrArg (fun M : Mat 2 2 => M 0 0) h
  simp at h00
  norm_num at h00

end

noncomputable section

/-- Over the reals a positive semidefinite matrix is symmetric. -/
lemma psd_transpose_eq {k : ℕ} {M : Mat k k} (h : M.PosSemidef) : M.transpose = M := by
  rw [← Matrix.conjTranspose_eq_transpose_of_trivial]
  exact h.1

/-- Congruence preserves positive semidefiniteness (real transpose form). -/
lemma psd_conj {k l : ℕ} {M : Mat k k} (h : M.PosSemidef) (B : Mat l k) :
    (B * M * B.transpose).PosSemidef := by
  rw [← Matrix.conjTranspose_eq_transpose_of_trivial]
  exact h.mul_mul_conjTranspose_same B

/-- Joseph-form positive semidefiniteness of the conditioned covariance:
for Sg, Rm positive semidefinite and S = Cm Sg Cmᵀ + Rm invertible,
Sg - Sg Cmᵀ S⁻¹ Cm Sg = (I - K Cm) Sg (I - K Cm)ᵀ + K Rm Kᵀ with
K = Sg Cmᵀ S⁻¹, hence positive semidefinite. -/
lemma josephPSD {k m : ℕ} {Sg : Mat k k} {Cm : Mat m k} {Rm : Mat m m}
    (hSgP : Sg.PosSemidef) (hRmP : Rm.PosSemidef)
    (hu : IsUnit (Cm * Sg * Cm.transpose + Rm).det) :
    (Sg - Sg * Cm.transpose
        * ((Cm * Sg * Cm.transpose + Rm)⁻¹ * (Cm * Sg))).PosSemidef := by
  have hSg : Sg.transpose = Sg := psd_transpose_eq hSgP
  have hRm : Rm.transpose = Rm := psd_transpose_eq hRmP
  have hSsym : (Cm * Sg * Cm.transpose + Rm).transpose
      = Cm * Sg * Cm.transpose + Rm := by
    rw [Matrix.transpose_add, hRm, Matrix.transpose_mul, Matrix.transpose_mul,
      Matrix.transpose_transpose, hSg, ← Matrix.mul_assoc]
  set K := Sg * Cm.transpose * (Cm * Sg * Cm.transpose + Rm)⁻¹ with hK
  have hKS : K * (Cm * Sg * Cm.transpose + Rm) = Sg * Cm.transpose := by
    rw [hK, Matrix.mul_assoc (Sg * Cm.transpose), Matrix.nonsing_inv_mul _ hu,
      Matrix.mul_one]
  have hexp : (1 - K * Cm) * Sg * (1 - K * Cm).transpose + K * Rm * K.transpose
      = Sg - K * (Cm * Sg) - Sg * Cm.transpose * K.transpose
        + (K * (Cm * Sg * Cm.transpose) * K.transpose + K * Rm * K.transpose) := by
    rw [Matrix.transpose_sub, Matrix.transpose_one, Matrix.transpose_mul]
    simp only [Matrix.sub_mul, Matrix.mul_sub, Matrix.add_mul, Matrix.mul_add,
      Matrix.one_mul, Matrix.mul_one, Matrix.mul_assoc]
    abel
  have h2 : K * (Cm * Sg * Cm.transpose) * K.transpose + K * Rm * K.transpose
      = Sg * Cm.transpose * K.transpose := by
    rw [← Matrix.add_mul, ← Matrix.mul_add, hKS]
  have hKCS : K * (Cm * Sg)
      = Sg * Cm.transpose * ((Cm * Sg * Cm.transpose + Rm)⁻¹ * (Cm * Sg)) := by
    rw [hK, Matrix.mul_assoc]
  have hmain : Sg - Sg * Cm.transpose * ((Cm * Sg * Cm.transpose + Rm)⁻¹ * (Cm * Sg))
      = (1 - K * Cm) * Sg * (1 - K * Cm).transpose + K * Rm * K.transpose := by
    rw [hexp, h2, ← hKCS]
    abel
  rw [hmain]
  exact Matrix.PosSemidef.add (psd_conj hSgP (1 - K * Cm)) (psd_conj hRmP K)

/-- Positive semidefiniteness propagates through the forward pass: under
positive semidefinite initial covariance, process noises and observation
noises, and positive-definite innovation covariances where observations are
present, every predicted and filtered covariance below the horizon is
positive semidefinite. -/
lemma kf_sigma_psd {n p : ℕ} (mu_init : Vec n) (sigma_init : Mat n n)
    (A sigma_states : ℕ → Mat n n) (C : ℕ → Mat p n) (sigma_obs : ℕ → Mat p p)
    (data : ℕ → Option (Vec p)) (T : ℕ)
    (hsx0 : sigma_init.PosSemidef)
    (hQ : ∀ t, (sigma_states t).PosSemidef)
    (hR : ∀ t, (sigma_obs t).PosSemidef)
    (hS : ∀ t, t < T → ∀ y, data t = some y →
      (C t * (kfState mu_init sigma_init A sigma_states C sigma_obs data t).sigmaPredict
        * (C t).transpose + sigma_obs t).PosDef) :
    ∀ t, t < T →
      ((kfState mu_init sigma_init A sigma_states C sigma_obs data t).sigmaPredict).PosSemidef
      ∧ ((kfFiltered mu_init sigma_init A sigma_states C sigma_obs data t).2.1).PosSemidef := by
  have hfil : ∀ t, t < T →
      ((kfState mu_init sigma_init A sigma_states C sigma_obs data t).sigmaPredict).PosSemidef →
      ((kfFiltered mu_init sigma_init A sigma_states C sigma_obs data t).2.1).PosSemidef := by
    intro t htT hp
    rw [kfFiltered]
    cases hdata : data t with
    | none =>
      simp only [condition_on]
      exact hp
    | some y =>
      obtain ⟨L, hL, heq⟩ := condition_on_some_eval
        (kfState mu_init sigma_init A sigma_states C sigma_obs data t).muPredict
        (kfState mu_init sigma_init A sigma_states C sigma_obs data t).sigmaPredict
        (C t) (sigma_obs t) y (psd_transpose_eq hp) (psd_transpose_eq (hR t))
        (hS t htT y hdata)
      rw [heq]
      exact josephPSD hp (hR t)
        (isUnit_iff_ne_zero.mpr (hS t htT y hdata).det_pos.ne')
  intro t
  induction t with
  | zero =>
    intro h0
    exact ⟨hsx0, hfil 0 h0 hsx0⟩
  | succ t ih =>
    intro hlt
    have ihp := ih (by omega)
    have hp1 : ((kfState mu_init sigma_init A sigma_states C sigma_obs data
        (t + 1)).sigmaPredict).PosSemidef := by
      have hrfl : (kfState mu_init sigma_init A sigma_states C sigma_obs data
          (t + 1)).sigmaPredict
          = sigma_states t
            + A t * (kfFiltered mu_init sigma_init A sigma_states C sigma_obs data t).2.1
              * (A t).transpose := rfl
      rw [hrfl]
      exact Matrix.PosSemidef.add (hQ t) (psd_conj ihp.2 (A t))
    exact ⟨hp1, hfil (t + 1) hlt hp1⟩

/-- Positive semidefiniteness propagates backward through the RTS recursion:
each smoothed covariance below the horizon is positive semidefinite, by the
Joseph-form decomposition of the backward step. -/
lemma smoothed_psd {n p : ℕ} (mu_init : Vec n) (sigma_init : Mat n n)
    (A sigma_states : ℕ → Mat n n) (C : ℕ → Mat p n) (sigma_obs : ℕ → Mat p p)
    (data : ℕ → Option (Vec p)) (T : ℕ)
    (hsx0 : sigma_init.PosSemidef)
    (hQ : ∀ t, (sigma_states t).PosSemidef)
    (hR : ∀ t, (sigma_obs t).PosSemidef)
    (hS : ∀ t, t < T → ∀ y, data t = some y →
      (C t * (kfState mu_init sigma_init A sigma_states C sigma_obs data t).sigmaPredict
        * (C t).transpose + sigma_obs t).PosDef)
    (hPd : ∀ t, t < T - 1 →
      ((kfState mu_init sigma_init A sigma_states C sigma_obs data
        (t + 1)).sigmaPredict).PosDef) :
    ∀ k t, T - 1 - t ≤ k → t < T →
      ((smoothedSpec mu_init sigma_init A sigma_states C sigma_obs data T t).2).PosSemidef := by
  intro k
  induction k with
  | zero =>
    intro t hk htT
    rw [smoothedSpec_ge mu_init sigma_init A sigma_states C sigma_obs data T t (by omega)]
    exact (kf_sigma_psd mu_init sigma_init A sigma_states C sigma_obs data T
      hsx0 hQ hR hS t htT).2
  | succ k ih =>
    intro t hk htT
    by_cases hlt : t < T - 1
    case neg =>
      rw [smoothedSpec_ge mu_init sigma_init A sigma_states C sigma_obs data T t (by omega)]
      exact (kf_sigma_psd mu_init sigma_init A sigma_states C sigma_obs data T
        hsx0 hQ hR hS t htT).2
    case pos =>
      have hpd1 := hPd t hlt
      have hpsymm : ((kfState mu_init sigma_init A sigma_states C sigma_obs data
          (t + 1)).sigmaPredict).transpose
          = (kfState mu_init sigma_init A sigma_states C sigma_obs data
            (t + 1)).sigmaPredict := psd_transpose_eq hpd1.posSemidef
      have hsfP := (kf_sigma_psd mu_init sigma_init A sigma_states C sigma_obs data T
        hsx0 hQ hR hS t (by omega)).2
      have hsf : ((kfFiltered mu_init sigma_init A sigma_states C sigma_obs data
          t).2.1).transpose
          = (kfFiltered mu_init sigma_init A sigma_states C sigma_obs data t).2.1 :=
        psd_transpose_eq hsfP
      have heval := rts_backward_step_eval (A t) (sigma_states t)
        (kfFiltered mu_init sigma_init A sigma_states C sigma_obs data t).1
        (kfFiltered mu_init sigma_init A sigma_states C sigma_obs data t).2.1
        (kfState mu_init sigma_init A sigma_states C sigma_obs data (t + 1)).muPredict
        (kfState mu_init sigma_init A sigma_states C sigma_obs data (t + 1)).sigmaPredict
        (smoothedSpec mu_init sigma_init A sigma_states C sigma_obs data T (t + 1)).1
        (smoothedSpec mu_init sigma_init A sigma_states C sigma_obs data T (t + 1)).2
        hpsymm hpd1
      rw [smoothedSpec_lt mu_init sigma_init A sigma_states C sigma_obs data T t hlt]
      dsimp only
      rw [rtsStepAt, heval]
      dsimp only
      rw [hsf]
      set sf := (kfFiltered mu_init sigma_init A sigma_states C sigma_obs data t).2.1
        with hsfdef
      set Sp := (kfState mu_init sigma_init A sigma_states C sigma_obs data
        (t + 1)).sigmaPredict with hSpdef
      set Ss := (smoothedSpec mu_init sigma_init A sigma_states C sigma_obs data T
        (t + 1)).2 with hSsdef
      have hdet : IsUnit Sp.det := isUnit_iff_ne_zero.mpr hpd1.det_pos.ne'
      have hWt : (Sp⁻¹ * (A t * sf)).transpose = sf * (A t).transpose * Sp⁻¹ := by
        rw [Matrix.transpose_mul, Matrix.transpose_mul, Matrix.transpose_nonsing_inv,
          hpsymm, hsf]
      have hsplit : sf - (Sp⁻¹ * (A t * sf)).transpose * (Sp - Ss) * (Sp⁻¹ * (A t * sf))
          = (sf - (Sp⁻¹ * (A t * sf)).transpose * Sp * (Sp⁻¹ * (A t * sf)))
            + (Sp⁻¹ * (A t * sf)).transpose * Ss * (Sp⁻¹ * (A t * sf)) := by
        noncomm_ring
      rw [hsplit]
      refine Matrix.PosSemidef.add ?_ ?_
      · have hmid : (Sp⁻¹ * (A t * sf)).transpose * Sp * (Sp⁻¹ * (A t * sf))
            = sf * (A t).transpose * (Sp⁻¹ * (A t * sf)) := by
          rw [hWt, Matrix.mul_assoc (sf * (A t).transpose) Sp⁻¹ Sp,
            Matrix.nonsing_inv_mul _ hdet, Matrix.mul_one]
        rw [hmid]
        have hSpval : Sp = A t * sf * (A t).transpose + sigma_states t := by
          rw [hSpdef, hsfdef]
          have h0 : (kfState mu_init sigma_init A sigma_states C sigma_obs data
              (t + 1)).sigmaPredict
              = sigma_states t
                + A t * (kfFiltered mu_init sigma_init A sigma_states C sigma_obs data t).2.1
                  * (A t).transpose := rfl
          rw [h0, add_comm]
        rw [hSpval]
        have hu2 : IsUnit (A t * sf * (A t).transpose + sigma_states t).det := by
          rw [← hSpval]
          exact hdet
        exact josephPSD hsfP (hQ t) hu2
      · rw [show (Sp⁻¹ * (A t * sf)).transpose * Ss * (Sp⁻¹ * (A t * sf))
            = (Sp⁻¹ * (A t * sf)).transpose * Ss
              * ((Sp⁻¹ * (A t * sf)).transpose).transpose from by
          rw [Matrix.transpose_transpose]]
        exact psd_conj (ih (t + 1) (by omega) (by omega)) ((Sp⁻¹ * (A t * sf)).transpose)

end

noncomputable section

/-- C8: under symmetric positive semidefinite initial covariance, process
noises and observation noises (symmetry being part of positive
semidefiniteness over the reals), with positive-definite innovation
covariances wherever an observation is present and positive-definite
predicted covariances wherever the backward pass factors them, every
covariance matrix in the sequences returned by kalman_filter, rts_smoother
and E_step is symmetric and positive semidefinite. -/
theorem C8_covariances_symm_psd {n p : ℕ} (T : ℕ) (hT : 0 < T)
    (mu_init : Vec n) (sigma_init : Mat n n) (A sigma_states : ℕ → Mat n n)
    (C : ℕ → Mat p n) (sigma_obs : ℕ → Mat p p) (data : ℕ → Option (Vec p))
    (hsx0 : sigma_init.PosSemidef)
    (hQ : ∀ t, (sigma_states t).PosSemidef)
    (hR : ∀ t, (sigma_obs t).PosSemidef)
    (hS : ∀ t, t < T → ∀ y, data t = some y →
      (C t * (kfState mu_init sigma_init A sigma_states C sigma_obs data t).sigmaPredict
        * (C t).transpose + sigma_obs t).PosDef)
    (hPd : ∀ t, t < T - 1 →
      ((kfState mu_init sigma_init A sigma_states C sigma_obs data
        (t + 1)).sigmaPredict).PosDef) :
    (∀ t : Fin T,
      ((kalman_filter mu_init sigma_init A sigma_states C sigma_obs data T).2.2 t).transpose
        = (kalman_filter mu_init sigma_init A sigma_states C sigma_obs data T).2.2 t
      ∧ ((kalman_filter mu_init sigma_init A sigma_states C sigma_obs data T).2.2 t).PosSemidef)
    ∧ (∀ t : Fin T,
      ((rts_smoother mu_init sigma_init A sigma_states C sigma_obs data T).2.2 t).transpose
        = (rts_smoother mu_init sigma_init A sigma_states C sigma_obs data T).2.2 t
      ∧ ((rts_smoother mu_init sigma_init A sigma_states C sigma_obs data T).2.2 t).PosSemidef)
    ∧ (∀ t : Fin T,
      ((E_step mu_init sigma_init A sigma_states C sigma_obs data T).2.2.1 t).transpose
        = (E_step mu_init sigma_init A sigma_states C sigma_obs data T).2.2.1 t
      ∧ ((E_step mu_init sigma_init A sigma_states C sigma_obs data T).2.2.1 t).PosSemidef) := by
  have hsm : ∀ t : ℕ, t < T →
      ((smoothedSpec mu_init sigma_init A sigma_states C sigma_obs data T t).2).PosSemidef :=
    fun t htT => smoothed_psd mu_init sigma_init A sigma_states C sigma_obs data T
      hsx0 hQ hR hS hPd (T - 1 - t) t le_rfl htT
  refine ⟨fun t => ?_, fun t => ?_, fun t => ?_⟩
  · have hk := (kf_sigma_psd mu_init sigma_init A sigma_states C sigma_obs data T
      hsx0 hQ hR hS t t.isLt).2
    have hrfl : (kalman_filter mu_init sigma_init A sigma_states C sigma_obs data T).2.2 t
        = (kfFiltered mu_init sigma_init A sigma_states C sigma_obs data t).2.1 := rfl
    rw [hrfl]
    exact ⟨psd_transpose_eq hk, hk⟩
  · rw [(rts_smoother_char mu_init sigma_init A sigma_states C sigma_obs data T hT t).2]
    exact ⟨psd_transpose_eq (hsm t t.isLt), hsm t t.isLt⟩
  · rw [(E_step_smoothed_char mu_init sigma_init A sigma_states C sigma_obs data T hT t).2]
    exact ⟨psd_transpose_eq (hsm t t.isLt), hsm t t.isLt⟩

theorem C8_witness :
    ((0 : ℕ) < 1
      ∧ (1 : Mat 1 1).PosSemidef
      ∧ (∀ t : ℕ, t < 1 → ∀ y : Vec 1,
          (fun _ => some (fun _ => (0 : ℝ)) : ℕ → Option (Vec 1)) t = some y →
          ((1 : Mat 1 1)
            * (kfState (fun _ => 0 : Vec 1) (1 : Mat 1 1) (fun _ => 1) (fun _ => 1)
                (fun _ => (1 : Mat 1 1)) (fun _ => 1)
                (fun _ => some (fun _ => (0 : ℝ))) t).sigmaPredict
            * (1 : Mat 1 1).transpose + 1).PosDef)
      ∧ (∀ t : ℕ, t < 1 - 1 →
          ((kfState (fun _ => 0 : Vec 1) (1 : Mat 1 1) (fun _ => 1) (fun _ => 1)
              (fun _ => (1 : Mat 1 1)) (fun _ => 1)
              (fun _ => some (fun _ => (0 : ℝ))) (t + 1)).sigmaPredict).PosDef))
    ∧ ((∀ t : Fin 1,
        ((kalman_filter (fun _ => 0 : Vec 1) (1 : Mat 1 1) (fun _ => 1) (fun _ => 1)
            (fun _ => (1 : Mat 1 1)) (fun _ => 1) (fun _ => some (fun _ => (0 : ℝ)))
            1).2.2 t).transpose
          = (kalman_filter (fun _ => 0 : Vec 1) (1 : Mat 1 1) (fun _ => 1) (fun _ => 1)
              (fun _ => (1 : Mat 1 1)) (fun _ => 1) (fun _ => some (fun _ => (0 : ℝ)))
              1).2.2 t
        ∧ ((kalman_filter (fun _ => 0 : Vec 1) (1 : Mat 1 1) (fun _ => 1) (fun _ => 1)
            (fun _ => (1 : Mat 1 1)) (fun _ => 1) (fun _ => some (fun _ => (0 : ℝ)))
            1).2.2 t).PosSemidef)
      ∧ (∀ t : Fin 1,
        ((rts_smoother (fun _ => 0 : Vec 1) (1 : Mat 1 1) (fun _ => 1) (fun _ => 1)
            (fun _ => (1 : Mat 1 1)) (fun _ => 1) (fun _ => some (fun _ => (0 : ℝ)))
            1).2.2 t).transpose
          = (rts_smoother (fun _ => 0 : Vec 1) (1 : Mat 1 1) (fun _ => 1) (fun _ => 1)
              (fun _ => (1 : Mat 1 1)) (fun _ => 1) (fun _ => some (fun _ => (0 : ℝ)))
              1).2.2 t
        ∧ ((rts_smoother (fun _ => 0 : Vec 1) (1 : Mat 1 1) (fun _ => 1) (fun _ => 1)
            (fun _ => (1 : Mat 1 1)) (fun _ => 1) (fun _ => some (fun _ => (0 : ℝ)))
            1).2.2 t).PosSemidef)
      ∧ (∀ t : Fin 1,
        ((E_step (fun _ => 0 : Vec 1) (1 : Mat 1 1) (fun _ => 1) (fun _ => 1)
            (fun _ => (1 : Mat 1 1)) (fun _ => 1) (fun _ => some (fun _ => (0 : ℝ)))
            1).2.2.1 t).transpose
          = (E_step (fun _ => 0 : Vec 1) (1 : Mat 1 1) (fun _ => 1) (fun _ => 1)
              (fun _ => (1 : Mat 1 1)) (fun _ => 1) (fun _ => some (fun _ => (0 : ℝ)))
              1).2.2.1 t
        ∧ ((E_step (fun _ => 0 : Vec 1) (1 : Mat 1 1) (fun _ => 1) (fun _ => 1)
            (fun _ => (1 : Mat 1 1)) (fun _ => 1) (fun _ => some (fun _ => (0 : ℝ)))
            1).2.2.1 t).PosSemidef)) := by
  have h1 : (1 : Mat 1 1).PosSemidef := Matrix.PosDef.one.posSemidef
  have hS : ∀ t : ℕ, t < 1 → ∀ y : Vec 1,
      (fun _ => some (fun _ => (0 : ℝ)) : ℕ → Option (Vec 1)) t = some y →
      ((1 : Mat 1 1)
        * (kfState (fun _ => 0 : Vec 1) (1 : Mat 1 1) (fun _ => 1) (fun _ => 1)
            (fun _ => (1 : Mat 1 1)) (fun _ => 1)
            (fun _ => some (fun _ => (0 : ℝ))) t).sigmaPredict
        * (1 : Mat 1 1).transpose + 1).PosDef := by
    intro t ht y hy
    have ht0 : t = 0 := by omega
    subst ht0
    have hval : (kfState (fun _ => 0 : Vec 1) (1 : Mat 1 1) (fun _ => 1) (fun _ => 1)
        (fun _ => (1 : Mat 1 1)) (fun _ => 1)
        (fun _ => some (fun _ => (0 : ℝ))) 0).sigmaPredict = 1 := rfl
    rw [hval, Matrix.transpose_one, Matrix.mul_one, Matrix.one_mul]
    exact Matrix.PosDef.add Matrix.PosDef.one Matrix.PosDef.one
  have hPd : ∀ t : ℕ, t < 1 - 1 →
      ((kfState (fun _ => 0 : Vec 1) (1 : Mat 1 1) (fun _ => 1) (fun _ => 1)
          (fun _ => (1 : Mat 1 1)) (fun _ => 1)
          (fun _ => some (fun _ => (0 : ℝ))) (t + 1)).sigmaPredict).PosDef :=
    fun t ht => absurd ht (by omega)
  exact ⟨⟨Nat.one_pos, h1, hS, hPd⟩,
    C8_covariances_symm_psd 1 Nat.one_pos (fun _ => 0) 1 (fun _ => 1) (fun _ => 1)
      (fun _ => 1) (fun _ => 1) (fun _ => some (fun _ => 0)) h1 (fun _ => h1) (fun _ => h1)
      hS hPd⟩

end
